import Mathlib

/-!
Verification development for the search-query-builder library
(src/search-query-builder.ts): a free-text to OR-joined query builder with a
token-level Aho-Corasick matcher.

Strings are modelled as `List Char`.  JavaScript's `String.prototype.normalize("NFKC")`
is modelled as the identity function: on the character domain this pipeline
manipulates (ASCII letters, digits, punctuation, whitespace, and the curly
quotation marks U+201C/U+201D), NFKC is the identity, since none of these code
points carry a canonical or compatibility decomposition.
`String.prototype.toLowerCase` is modelled by `Char.toLower` (ASCII `A`-`Z`
lowering), which agrees with JavaScript on this domain.  `a.localeCompare(b)`
is modelled as code-point lexicographic comparison, which agrees with the
default collation on the lowercase alphanumeric strings the matcher produces.
-/

/-- Strings are lists of characters. -/
abbrev Str := List Char

/-- Whitespace characters as matched by JavaScript's `\s` class, `trim`, and
`String.prototype.trim`: tab through carriage return, space, NBSP, the
Unicode space separators, line/paragraph separators, and the BOM. -/
def isJsWs (c : Char) : Bool :=
  decide (c.toNat = 9 ∨ c.toNat = 10 ∨ c.toNat = 11 ∨ c.toNat = 12 ∨ c.toNat = 13 ∨
    c.toNat = 32 ∨ c.toNat = 160 ∨ c.toNat = 5760 ∨
    (8192 ≤ c.toNat ∧ c.toNat ≤ 8202) ∨ c.toNat = 8232 ∨ c.toNat = 8233 ∨
    c.toNat = 8239 ∨ c.toNat = 8287 ∨ c.toNat = 12288 ∨ c.toNat = 65279)

/-- Remove leading whitespace (left half of `String.prototype.trim`). -/
def trimLeft (s : Str) : Str := s.dropWhile isJsWs

/-- Remove trailing whitespace (right half of `String.prototype.trim`). -/
def trimRight : Str → Str
  | [] => []
  | c :: cs =>
    match trimRight cs with
    | [] => if isJsWs c then [] else [c]
    | d :: ds => c :: d :: ds

/-- JavaScript `String.prototype.trim`: drop whitespace from both ends. -/
def trim (s : Str) : Str := trimRight (trimLeft s)

/-- JavaScript `String.prototype.normalize("NFKC")`, modelled as the identity:
NFKC fixes every code point in the modelled character domain (no canonical or
compatibility decompositions there). -/
def nfkc (s : Str) : Str := s

/-- Embedding of `defaultNormalize`: `s.normalize("NFKC").toLowerCase().trim()`. -/
def defaultNormalize (s : Str) : Str := trim ((nfkc s).map Char.toLower)

/-- Character class `[a-z0-9]` of `DEFAULT_TOKEN_REGEX` under the `i` flag
(which also admits `A`-`Z`). -/
def isWordChar (c : Char) : Bool :=
  decide ((97 ≤ c.toNat ∧ c.toNat ≤ 122) ∨ (48 ≤ c.toNat ∧ c.toNat ≤ 57) ∨
    (65 ≤ c.toNat ∧ c.toNat ≤ 90))

/-- Separator class of the token regex: a hyphen or an apostrophe. -/
def isSepChar (c : Char) : Bool := decide (c = '-' ∨ c = '\'')

/-- Longest prefix of word-class characters together with the rest of the
input (the greedy `[a-z0-9]+` step of the token regex). -/
def takeRun : Str → Str × Str
  | [] => ([], [])
  | c :: cs =>
    if isWordChar c then
      let p := takeRun cs
      (c :: p.1, p.2)
    else ([], c :: cs)

/-- Greedy `(?:[-'][a-z0-9]+)*` continuation of a token: repeatedly consume a
separator followed by a nonempty word-character run.  Fuel-based so that the
definition is structurally recursive; the wrapper supplies ample fuel. -/
def munchF : Nat → Str → Str × Str
  | 0, l => ([], l)
  | fuel + 1, l =>
    match l with
    | c :: c2 :: cs =>
      if isSepChar c && isWordChar c2 then
        let p := takeRun (c2 :: cs)
        let q := munchF fuel p.2
        (c :: (p.1 ++ q.1), q.2)
      else ([], l)
    | _ => ([], l)

/-- One pass of the global regex `exec` loop of `defaultTokenize`: at each
position, if a word character starts a match, emit the maximal token
(`[a-z0-9]+(?:[-'][a-z0-9]+)*`) and resume after it, otherwise skip one
character. -/
def tokenScanF : Nat → Str → List Str
  | 0, _ => []
  | _ + 1, [] => []
  | fuel + 1, c :: cs =>
    if isWordChar c then
      let p := takeRun (c :: cs)
      let q := munchF fuel p.2
      (p.1 ++ q.1) :: tokenScanF fuel q.2
    else tokenScanF fuel cs

/-- All matches of `DEFAULT_TOKEN_REGEX` (with the `g` flag) over a string. -/
def tokenScan (s : Str) : List Str := tokenScanF (s.length + 1) s

/-- Embedding of `defaultTokenize`: normalize, then extract every regex match. -/
def defaultTokenize (s : Str) : List Str := tokenScan (defaultNormalize s)

/-- Acceptance of the token pattern `[a-z0-9]+(?:[-'][a-z0-9]+)*` as a
two-state checker: the flag is `true` when a word character is required next
(at the start and right after a separator). -/
def acceptsTok : Bool → Str → Bool
  | true, [] => false
  | true, c :: cs => isWordChar c && acceptsTok false cs
  | false, [] => true
  | false, c :: cs =>
    if isWordChar c then acceptsTok false cs
    else isSepChar c && acceptsTok true cs

/-- A string matches the whole token pattern. -/
def acceptsPattern (t : Str) : Bool := acceptsTok true t

/-- Embedding of `defaultWrap`: `q => "/" + q + "/"`. -/
def defaultWrap (q : Str) : Str := '/' :: (q ++ ['/'])

/-- Single-character replacement step of `phrase.replace(/\\/g, "\\\\")`:
each backslash becomes two. -/
def escBackslash (c : Char) : Str := if c = '\\' then ['\\', '\\'] else [c]

/-- Single-character replacement step of `.replace(/"/g, "\\\"")`: each
double quote gets a backslash prefix. -/
def escQuote (c : Char) : Str := if c = '"' then ['\\', '"'] else [c]

/-- Global single-character regex replacement: apply `f` to every character
and concatenate (the semantics of `replace(/x/g, y)` for one-character
patterns). -/
def replaceEach (f : Char → Str) : Str → Str
  | [] => []
  | c :: cs => f c ++ replaceEach f cs

/-- Embedding of `quoteExact`: escape backslashes, then escape quotes, then
wrap the result in double quotes. -/
def quoteExact (phrase : Str) : Str :=
  '"' :: (replaceEach escQuote (replaceEach escBackslash phrase) ++ ['"'])

/-- De-escaping of the interior of a quoted clause: a backslash escapes the
character after it.  This is the inverse direction of `quoteExact`'s
escaping; it is not part of the source and is used to state the round-trip
property of the escaping. -/
def unescapeInner : Str → Str
  | [] => []
  | [c] => [c]
  | c :: c2 :: cs =>
    if c = '\\' then c2 :: unescapeInner cs
    else c :: unescapeInner (c2 :: cs)

/-- De-escape a whole clause: strip the surrounding double quotes and
de-escape the interior.  Returns `none` when the clause is not wrapped in
double quotes. -/
def unescapeClause (s : Str) : Option Str :=
  match s with
  | c :: rest =>
    if c = '"' ∧ rest.getLast? = some '"' then some (unescapeInner rest.dropLast) else none
  | [] => none

/-- Count of straight double quotes not immediately preceded by a backslash;
`prev` is the previous character (`none` at the start of the string, matching
`s[i-1] === undefined` for `i = 0`). -/
def countStraightAux : Option Char → Str → Nat
  | _, [] => 0
  | prev, c :: cs =>
    (if c = '"' ∧ prev ≠ some '\\' then 1 else 0) + countStraightAux (some c) cs

/-- Count of unescaped straight quotes in a string. -/
def countStraightQuotes (s : Str) : Nat := countStraightAux none s

/-- Embedding of `hasBalancedStraightQuotes`: the count of unescaped straight
quotes is even. -/
def hasBalancedStraightQuotes (s : Str) : Bool := decide (countStraightQuotes s % 2 = 0)

/-- Embedding of `hasBalancedCurlyQuotes`: as many opening as closing curly
quotation marks. -/
def hasBalancedCurlyQuotes (s : Str) : Bool := decide (s.count '“' = s.count '”')

/-- Forward search for the first occurrence of `endChar` not immediately
preceded by a backslash (`prev` is the character before the current one);
returns the text before it and the text after it.  Models the inner `while`
loop of `extractQuotedPhrasesBalanced`. -/
def findClose (endChar : Char) : Char → Str → Option (Str × Str)
  | _, [] => none
  | prev, c :: cs =>
    if c = endChar ∧ prev ≠ '\\' then some ([], cs)
    else (findClose endChar c cs).map (fun p => (c :: p.1, p.2))

/-- Main scan loop of `extractQuotedPhrasesBalanced`: on an opening quote mark
(straight or curly), search for the matching unescaped closer; if found, the
inner text becomes a protected phrase when its trim is non-blank and the scan
resumes after the closer, with nothing added to the remainder; otherwise the
character joins the remainder.  Fuel-based (each step consumes at least one
character, so the wrapper's fuel of `length + 1` suffices). -/
def extractLoopF : Nat → Str → List Str × Str
  | 0, l => ([], l)
  | _ + 1, [] => ([], [])
  | fuel + 1, c :: cs =>
    if c = '"' ∨ c = '“' then
      let endChar := if c = '"' then '"' else '”'
      match findClose endChar c cs with
      | some (inside, after) =>
        let r := extractLoopF fuel after
        (if trim inside ≠ [] then inside :: r.1 else r.1, r.2)
      | none =>
        let r := extractLoopF fuel cs
        (r.1, c :: r.2)
    else
      let r := extractLoopF fuel cs
      (r.1, c :: r.2)

/-- Embedding of `extractQuotedPhrasesBalanced`: protected phrases and the
trimmed unquoted remainder. -/
def extractQuotedPhrasesBalanced (input : Str) : List Str × Str :=
  let r := extractLoopF (input.length + 1) input
  (r.1, trim r.2)

/-- Collapse of whitespace runs (`replace(/\s+/g, " ")`): every maximal run of
whitespace becomes a single space.  The flag records whether the previous
character was part of a run already emitted. -/
def collapseWsAux : Bool → Str → Str
  | _, [] => []
  | inRun, c :: cs =>
    if isJsWs c then
      if inRun then collapseWsAux true cs else ' ' :: collapseWsAux true cs
    else c :: collapseWsAux false cs

/-- Replace every whitespace run by a single space. -/
def collapseWs (s : Str) : Str := collapseWsAux false s

/-- Embedding of `stripStrayQuotes`: replace every quote character (straight
or curly) by a space, collapse whitespace runs, and trim. -/
def stripStrayQuotes (s : Str) : Str :=
  trim (collapseWs (s.map (fun c => if c = '"' ∨ c = '“' ∨ c = '”' then ' ' else c)))

/-- Remainder computation as the specification's words describe it for the
unbalanced-quote case: delete every quote character from the input, collapse
whitespace runs to single spaces, and trim.  This follows the spec text, not
the source, and exists only to compare against `stripStrayQuotes`. -/
def removeQuotesDeleted (s : Str) : Str :=
  trim (collapseWs (s.filter (fun c => !decide (c = '"' ∨ c = '“' ∨ c = '”'))))

/-- Token-level Aho-Corasick automaton state (class `TokenAC`): per-state
edge maps (association lists keyed by token, in insertion order, modelling
the per-state `Record<string, number>`), failure links, output sets, the
phrase strings, and the phrase token lengths. -/
structure TokenAC where
  next : List (List (Str × Nat))
  fail : List Nat
  out : List (List Nat)
  phrases : List Str
  pLens : List Nat
deriving DecidableEq

/-- Freshly constructed automaton: only the root state. -/
def emptyAC : TokenAC := ⟨[[]], [0], [[]], [], []⟩

/-- Lookup of a token in a state's edge map (first matching key). -/
def findEdge : List (Str × Nat) → Str → Option Nat
  | [], _ => none
  | (k, v) :: es, t => if k = t then some v else findEdge es t

/-- Outgoing edge of state `n` on token `t` (`this.next[n][t]`). -/
def edge (ac : TokenAC) (n : Nat) (t : Str) : Option Nat :=
  findEdge (ac.next.getD n []) t

/-- Output list of a state (`this.out[n]`). -/
def outAt (ac : TokenAC) (n : Nat) : List Nat := ac.out.getD n []

/-- Follow trie edges from state `n` along a token sequence. -/
def walkFrom (ac : TokenAC) (n : Nat) : List Str → Option Nat
  | [] => some n
  | t :: ts =>
    match edge ac n t with
    | some m => walkFrom ac m ts
    | none => none

/-- State-creation step of `addTokens`'s insertion loop: a fresh state
numbered `next.length` is appended (empty edge map, failure link 0, empty
output list) and an edge on `t` from `node` to it is recorded. -/
def extendAC (ac : TokenAC) (node : Nat) (t : Str) : TokenAC :=
  { ac with
    next := (ac.next.set node ((ac.next.getD node []) ++ [(t, ac.next.length)])) ++ [[]],
    fail := ac.fail ++ [0],
    out := ac.out ++ [[]] }

/-- Trie-walking phase of `addTokens`: follow existing edges and create fresh
states for the missing ones; returns the updated automaton and the terminal
state. -/
def insertPath : TokenAC → Nat → List Str → TokenAC × Nat
  | ac, node, [] => (ac, node)
  | ac, node, t :: ts =>
    match edge ac node t with
    | some child => insertPath ac child ts
    | none => insertPath (extendAC ac node t) ac.next.length ts

/-- JavaScript `Array.prototype.join` generalized to an arbitrary separator. -/
def joinSep (sep : Str) : List Str → Str
  | [] => []
  | [x] => x
  | x :: xs => x ++ sep ++ joinSep sep xs

/-- Embedding of `TokenAC.addTokens`: empty token lists are ignored; the token
path is walked/extended, and the phrase is registered at the terminal state
unless that state's output list already holds a phrase id with the same
space-joined string. -/
def addTokens (ac : TokenAC) (tokens : List Str) : TokenAC :=
  if tokens = [] then ac
  else
    let r := insertPath ac 0 tokens
    let str := joinSep [' '] tokens
    if (outAt r.1 r.2).any (fun pid => r.1.phrases.getD pid [] = str) then r.1
    else
      { r.1 with
        phrases := r.1.phrases ++ [str],
        pLens := r.1.pLens ++ [tokens.length],
        out := r.1.out.set r.2 ((outAt r.1 r.2) ++ [r.1.phrases.length]) }

/-- Embedding of `TokenAC.addPhrase`: tokenize the raw phrase with the
builder's tokenizer (here the default one) and insert the tokens. -/
def addPhrase (ac : TokenAC) (raw : Str) : TokenAC := addTokens ac (defaultTokenize raw)

/-- Failure-link chase: while the state is not the root and has no edge on
the token, follow its failure link (the shared `while` loop of `findAll` and
`build`).  Fuel-based; the callers pass the number of states, which bounds
every terminating chase. -/
def failFollow (ac : TokenAC) : Nat → Nat → Str → Nat
  | 0, state, _ => state
  | fuel + 1, state, tok =>
    if state ≠ 0 ∧ edge ac state tok = none then
      failFollow ac fuel (ac.fail.getD state 0) tok
    else state

/-- One automaton transition: chase failure links, then take the edge if it
exists, else return to the root (`ns == null ? 0 : ns`). -/
def acStep (ac : TokenAC) (state : Nat) (tok : Str) : Nat :=
  let s := failFollow ac ac.next.length state tok
  match edge ac s tok with
  | some ns => ns
  | none => 0

/-- Root-initialization phase of `TokenAC.build`: every root child gets
failure link 0 and is queued. -/
def buildInit (ac : TokenAC) : TokenAC × List Nat :=
  (ac.next.getD 0 []).foldl
    (fun (p : TokenAC × List Nat) e =>
      if e.2 ≠ 0 then ({ p.1 with fail := p.1.fail.set e.2 0 }, p.2 ++ [e.2]) else p)
    (ac, [])

/-- Processing of one dequeued state `v` in `TokenAC.build`: merge the output
list of `v`'s failure state into `v`'s (when nonempty), then assign each
child `u` on token `k` its failure link by chasing from `fail[v]`, queueing
`u`. -/
def buildStep (ac : TokenAC) (v : Nat) : TokenAC × List Nat :=
  let f := ac.fail.getD v 0
  let ac1 :=
    if outAt ac f ≠ [] then { ac with out := ac.out.set v ((outAt ac v) ++ outAt ac f) }
    else ac
  (ac1.next.getD v []).foldl
    (fun (p : TokenAC × List Nat) e =>
      ({ p.1 with fail := p.1.fail.set e.2 (acStep p.1 (p.1.fail.getD v 0) e.1) },
        p.2 ++ [e.2]))
    (ac1, [])

/-- Breadth-first queue processing of `TokenAC.build`.  Fuel-based: on a trie
every state is dequeued at most once, so the number of states suffices. -/
def buildLoop : Nat → TokenAC → List Nat → TokenAC
  | 0, ac, _ => ac
  | _ + 1, ac, [] => ac
  | fuel + 1, ac, v :: q =>
    let r := buildStep ac v
    buildLoop fuel r.1 (q ++ r.2)

/-- Embedding of `TokenAC.build`. -/
def buildAC (ac : TokenAC) : TokenAC :=
  let r := buildInit ac
  buildLoop r.1.next.length r.1 r.2

/-- Match candidates emitted at position `i` in state `state` of the
`findAll` scan: for every phrase id in the state's output list whose token
length fits (`start = i - len + 1 >= 0`), the triple
(start index, end index `i`, phrase string). -/
def candidatesAt (ac : TokenAC) (i state : Nat) : List (Nat × Nat × Str) :=
  (outAt ac state).filterMap (fun pid =>
    let len := ac.pLens.getD pid 0
    if len ≤ i + 1 then some (i + 1 - len, i, ac.phrases.getD pid []) else none)

/-- Candidate stream of the `findAll` scan over a token sequence, in the
order the loop visits them. -/
def scanLoop (ac : TokenAC) : Nat → Nat → List Str → List (Nat × Nat × Str)
  | _, _, [] => []
  | i, state, tok :: rest =>
    let s := acStep ac state tok
    candidatesAt ac i s ++ scanLoop ac (i + 1) s rest

/-- Full candidate stream of a `findAll` run (scan starts at position 0 in
the root state). -/
def scanCandidates (ac : TokenAC) (tokens : List Str) : List (Nat × Nat × Str) :=
  scanLoop ac 0 0 tokens

/-- One `best.set(start, ...)` update guarded by `!prev || i > prev.end`:
a map entry keyed by start index is replaced in place when the new candidate
ends strictly later, and a missing key is appended (JavaScript `Map`
insertion order). -/
def setBest : List (Nat × Nat × Str) → Nat × Nat × Str → List (Nat × Nat × Str)
  | [], c => [c]
  | e :: es, c =>
    if e.1 = c.1 then (if e.2.1 < c.2.1 then c :: es else e :: es)
    else e :: setBest es c

/-- Entries of the `best` map after the whole scan, in `Map` value order. -/
def bestEntries (ac : TokenAC) (tokens : List Str) : List (Nat × Nat × Str) :=
  (scanCandidates ac tokens).foldl setBest []

/-- First-occurrence deduplication with an accumulator of already-seen
elements (the semantics of `Array.from(new Set(list))`). -/
def dedupSeen {α : Type} [DecidableEq α] (seen : List α) : List α → List α
  | [] => []
  | x :: xs =>
    if x ∈ seen then dedupSeen seen xs else x :: dedupSeen (x :: seen) xs

/-- Deduplicate a list keeping the first occurrence of each element. -/
def dedupFirst {α : Type} [DecidableEq α] (l : List α) : List α := dedupSeen [] l

/-- Code-point lexicographic comparison on strings (less-or-equal), the
model of `a.localeCompare(b) <= 0` on the matcher's output strings. -/
def lexLe : Str → Str → Bool
  | [], _ => true
  | _ :: _, [] => false
  | a :: as, b :: bs => if a < b then true else if b < a then false else lexLe as bs

/-- Sort comparator of `findAll` (`b.length - a.length || a.localeCompare(b)`)
as a relation: longer strings first, ties in ascending lexicographic order. -/
def matchOrder (a b : Str) : Prop :=
  b.length < a.length ∨ (a.length = b.length ∧ lexLe a b = true)

instance : DecidableRel matchOrder := fun a b => by
  unfold matchOrder; infer_instance

/-- Embedding of `TokenAC.findAll`: scan the token sequence, keep the
best candidate per start index, collect the retained phrase strings,
deduplicate, and sort longest-first with lexicographic tie-break. -/
def findAll (ac : TokenAC) (tokens : List Str) : List Str :=
  if ac.next.length = 1 then []
  else
    List.insertionSort matchOrder
      (dedupFirst ((bestEntries ac tokens).map (fun e => e.2.2)))

/-- Configuration and state of a `SearchQueryBuilder` instance after its
constructor ran: stop words, the (possibly overridden) normalize/tokenize/wrap
functions, the cleaned-clause flag, and the built automaton. -/
structure SearchQueryBuilder where
  stopWords : List Str
  normalize : Str → Str
  tokenize : Str → List Str
  wrap : Str → Str
  alwaysIncludeCleaned : Bool
  ac : TokenAC

/-- Result record of `prepare` (type `PreparedQuery`). -/
structure PreparedQuery where
  originalInput : Str
  protectedPhrases : List Str
  cleanedTokens : List Str
  cleanedText : Str
  utteranceMatches : List Str
  queryString : Str
  hadUnbalancedQuotes : Bool
deriving DecidableEq

/-- Stop-word filtering step of `prepare`: when the stop-word set is nonempty,
keep the tokens not in it (`this.stopWords.size ? ... : ...`). -/
def applyStopWords (stopWords : List Str) (tokens : List Str) : List Str :=
  if stopWords.isEmpty then tokens
  else tokens.filter (fun t => !decide (t ∈ stopWords))

/-- Embedding of `SearchQueryBuilder.prepare`. -/
def prepare (b : SearchQueryBuilder) (userInput : Str) : PreparedQuery :=
  let originalInput := userInput
  let trimmed := trim originalInput
  if trimmed = [] then
    { originalInput := originalInput, protectedPhrases := [], cleanedTokens := [],
      cleanedText := [], utteranceMatches := [], queryString := [],
      hadUnbalancedQuotes := false }
  else
    let quotesBalanced := hasBalancedStraightQuotes originalInput &&
      hasBalancedCurlyQuotes originalInput
    let pr :=
      if quotesBalanced then
        let r := extractQuotedPhrasesBalanced originalInput
        ((r.1.map trim).filter (fun p => !p.isEmpty), r.2)
      else ([], stripStrayQuotes originalInput)
    let protectedPhrases := pr.1
    let remainder := pr.2
    let remainderTokens := b.tokenize remainder
    let cleanedTokens := applyStopWords b.stopWords remainderTokens
    let cleanedText := trim (joinSep [' '] cleanedTokens)
    let utteranceMatches := findAll b.ac cleanedTokens
    let normOriginal := b.normalize originalInput
    let clauses := [quoteExact trimmed] ++
      (if !cleanedText.isEmpty && (b.alwaysIncludeCleaned || !decide (cleanedText = normOriginal))
        then [quoteExact cleanedText] else []) ++
      (if quotesBalanced && !protectedPhrases.isEmpty
        then protectedPhrases.map quoteExact else []) ++
      utteranceMatches.map quoteExact
    let ordered := dedupFirst clauses
    let queryString := joinSep (" OR ".toList) (ordered.map b.wrap)
    { originalInput := originalInput, protectedPhrases := protectedPhrases,
      cleanedTokens := cleanedTokens, cleanedText := cleanedText,
      utteranceMatches := utteranceMatches, queryString := queryString,
      hadUnbalancedQuotes := !quotesBalanced }

/-- Clause list of `prepare` before quote-escaping, in push order: the
trimmed raw input, the cleaned text (under its condition), the protected
phrases (when quotes were balanced), and the utterance matches.  Used to
state that quote-escaping is applied to every clause before deduplication. -/
def rawClauses (b : SearchQueryBuilder) (userInput : Str) : List Str :=
  let trimmed := trim userInput
  if trimmed = [] then []
  else
    let quotesBalanced := hasBalancedStraightQuotes userInput &&
      hasBalancedCurlyQuotes userInput
    let pr :=
      if quotesBalanced then
        let r := extractQuotedPhrasesBalanced userInput
        ((r.1.map trim).filter (fun p => !p.isEmpty), r.2)
      else ([], stripStrayQuotes userInput)
    let cleanedTokens := applyStopWords b.stopWords (b.tokenize pr.2)
    let cleanedText := trim (joinSep [' '] cleanedTokens)
    let utteranceMatches := findAll b.ac cleanedTokens
    let normOriginal := b.normalize userInput
    [trimmed] ++
      (if !cleanedText.isEmpty && (b.alwaysIncludeCleaned || !decide (cleanedText = normOriginal))
        then [cleanedText] else []) ++
      (if quotesBalanced && !pr.1.isEmpty then pr.1 else []) ++
      utteranceMatches

/-- Builder instance with every option left at its default (empty stop-word
set, no registered utterances, default normalize/tokenize/wrap). -/
def plainBuilder : SearchQueryBuilder :=
  { stopWords := [], normalize := defaultNormalize, tokenize := defaultTokenize,
    wrap := defaultWrap, alwaysIncludeCleaned := false, ac := buildAC emptyAC }

/-- Automaton built from a list of pre-tokenized phrases, as the constructor
does on the `pretokenizedUtterances` path. -/
def mkAC (phraseTokenLists : List (List Str)) : TokenAC :=
  buildAC (phraseTokenLists.foldl addTokens emptyAC)

/-- Lookup in the best-candidate map by start index (first entry wins; the
map construction keeps keys unique). -/
def lookupB : List (Nat × Nat × Str) → Nat → Option (Nat × Str)
  | [], _ => none
  | e :: es, s => if e.1 = s then some e.2 else lookupB es s

/-- Phrase store built by a sequence of `addTokens` insertions into a fresh
automaton. -/
def buildStore (seqs : List (List Str)) : TokenAC := seqs.foldl addTokens emptyAC

/-- Structural invariants of the automaton trie maintained by `insertPath`:
output and edge arrays have one entry per state, the root exists, every edge
goes from a lower to a higher in-range state id, and every state has at most
one incoming edge. -/
structure SInv (ac : TokenAC) : Prop where
  out_len : ac.out.length = ac.next.length
  root_lt : 0 < ac.next.length
  edges_lt : ∀ m t k, edge ac m t = some k → m < k ∧ k < ac.next.length
  parent_uniq : ∀ m₁ t₁ m₂ t₂ k, edge ac m₁ t₁ = some k → edge ac m₂ t₂ = some k →
    m₁ = m₂ ∧ t₁ = t₂

/-- Relation between a phrase store and the token sequences inserted into it
so far (before `build` runs): the phrase list is the space-joined form of the
distinct nonempty inserted sequences in first-insertion order; every output
entry belongs to the state its own sequence walks to; and every inserted
nonempty sequence has a matching output entry at its terminal state. -/
structure StoreInv (ac : TokenAC) (seqs : List (List Str)) : Prop where
  struct : SInv ac
  phrases_eq :
    ac.phrases = (dedupFirst (seqs.filter (fun s => !s.isEmpty))).map (joinSep [' '])
  out_sound : ∀ n pid, pid ∈ outAt ac n → ∃ seq, seq ∈ seqs ∧ seq ≠ [] ∧
    walkFrom ac 0 seq = some n ∧ pid < ac.phrases.length ∧
    ac.phrases.getD pid [] = joinSep [' '] seq
  out_complete : ∀ seq, seq ∈ seqs → seq ≠ [] → ∃ n, walkFrom ac 0 seq = some n ∧
    ∃ pid, pid ∈ outAt ac n ∧ ac.phrases.getD pid [] = joinSep [' '] seq

/-- Automaton of claim C1's concrete example: phrases `pre clear` and
`pre clear trade`. -/
def exC1AC : TokenAC :=
  mkAC [["pre".toList, "clear".toList], ["pre".toList, "clear".toList, "trade".toList]]

/-- Token sequence of claim C1's concrete example. -/
def exC1Toks : List Str := ["pre".toList, "clear".toList, "trade".toList]

/-! ### Supporting lemmas: characters, trim, normalize -/

theorem toNat_ofNat_shift (n : Nat) (h1 : 65 ≤ n) (h2 : n ≤ 90) :
    (Char.ofNat (n + 32)).toNat = n + 32 := by
  interval_cases n <;> decide

theorem toLower_eq (c : Char) :
    Char.toLower c = if c.toNat ≥ 65 ∧ c.toNat ≤ 90 then Char.ofNat (c.toNat + 32) else c := rfl

theorem toLower_toLower (c : Char) : Char.toLower (Char.toLower c) = Char.toLower c := by
  by_cases h : c.toNat ≥ 65 ∧ c.toNat ≤ 90
  · have h1 : Char.toLower c = Char.ofNat (c.toNat + 32) := by rw [toLower_eq, if_pos h]
    have h2 : (Char.toLower c).toNat = c.toNat + 32 := by
      rw [h1]; exact toNat_ofNat_shift c.toNat h.1 h.2
    rw [toLower_eq (Char.toLower c), if_neg (by omega)]
  · have h1 : Char.toLower c = c := by rw [toLower_eq, if_neg h]
    rw [h1, h1]

theorem isJsWs_toLower (c : Char) : isJsWs (Char.toLower c) = isJsWs c := by
  by_cases h : c.toNat ≥ 65 ∧ c.toNat ≤ 90
  · have h1 : Char.toLower c = Char.ofNat (c.toNat + 32) := by rw [toLower_eq, if_pos h]
    have h2 : (Char.toLower c).toNat = c.toNat + 32 := by
      rw [h1]; exact toNat_ofNat_shift c.toNat h.1 h.2
    obtain ⟨ha, hb⟩ := h
    simp only [isJsWs, h2]
    rw [decide_eq_decide]
    omega
  · rw [toLower_eq, if_neg h]

theorem trimLeft_head_not_ws : ∀ (l : Str) (c : Char) (rest : Str),
    trimLeft l = c :: rest → isJsWs c = false
  | [], c, rest, h => by simp [trimLeft] at h
  | c0 :: cs, c, rest, h => by
    by_cases h0 : isJsWs c0
    · exact trimLeft_head_not_ws cs c rest
        (by simpa [trimLeft, List.dropWhile_cons, h0] using h)
    · have h' : c0 :: cs = c :: rest := by
        simpa [trimLeft, List.dropWhile_cons, h0] using h
      injection h' with e1 _
      rw [← e1]
      exact eq_false_of_ne_true h0

theorem trimLeft_eq_self : ∀ (l : Str),
    (∀ c rest, l = c :: rest → isJsWs c = false) → trimLeft l = l
  | [], _ => rfl
  | c :: cs, h => by simp [trimLeft, List.dropWhile_cons, h c cs rfl]

theorem trimLeft_trimLeft (l : Str) : trimLeft (trimLeft l) = trimLeft l := by
  apply trimLeft_eq_self
  intro c rest h
  exact trimLeft_head_not_ws l c rest h

theorem trimRight_cons (c : Char) (cs : Str) :
    trimRight (c :: cs) =
      match trimRight cs with
      | [] => if isJsWs c then [] else [c]
      | d :: ds => c :: d :: ds := rfl

theorem trimRight_shape (c : Char) (cs : Str) :
    trimRight (c :: cs) = [] ∨ ∃ ds, trimRight (c :: cs) = c :: ds := by
  rw [trimRight_cons]
  cases trimRight cs with
  | nil =>
    by_cases h : isJsWs c
    · left; simp [h]
    · right; exact ⟨[], by simp [h]⟩
  | cons d ds => right; exact ⟨d :: ds, rfl⟩

theorem trimRight_trimRight : ∀ (l : Str), trimRight (trimRight l) = trimRight l
  | [] => rfl
  | c :: cs => by
    rw [trimRight_cons]
    cases h : trimRight cs with
    | nil =>
      by_cases hc : isJsWs c
      · simp [hc, trimRight]
      · simp [hc, trimRight_cons, trimRight]
    | cons d ds =>
      have ih : trimRight (d :: ds) = d :: ds := by
        rw [← h]; exact trimRight_trimRight cs
      rw [trimRight_cons, ih]

theorem trim_trim (l : Str) : trim (trim l) = trim l := by
  unfold trim
  have h1 : trimLeft (trimRight (trimLeft l)) = trimRight (trimLeft l) := by
    apply trimLeft_eq_self
    intro c' rest' h'
    cases hL : trimLeft l with
    | nil => rw [hL] at h'; simp [trimRight] at h'
    | cons c0 cs0 =>
      rw [hL] at h'
      rcases trimRight_shape c0 cs0 with h2 | ⟨ds, h2⟩
      · rw [h2] at h'; cases h'
      · rw [h2] at h'
        injection h' with e1 _
        rw [← e1]
        exact trimLeft_head_not_ws l c0 cs0 hL
  rw [h1, trimRight_trimRight]

theorem dropWhile_map_ws (f : Char → Char) (hf : ∀ c, isJsWs (f c) = isJsWs c) :
    ∀ (l : Str), (l.map f).dropWhile isJsWs = (l.dropWhile isJsWs).map f
  | [] => rfl
  | c :: cs => by
    by_cases h : isJsWs c
    · simp [List.dropWhile_cons, hf c, h, dropWhile_map_ws f hf cs]
    · simp [List.dropWhile_cons, hf c, h]

theorem trimLeft_map_ws (f : Char → Char) (hf : ∀ c, isJsWs (f c) = isJsWs c) (l : Str) :
    trimLeft (l.map f) = (trimLeft l).map f :=
  dropWhile_map_ws f hf l

theorem trimRight_map_ws (f : Char → Char) (hf : ∀ c, isJsWs (f c) = isJsWs c) :
    ∀ (l : Str), trimRight (l.map f) = (trimRight l).map f
  | [] => rfl
  | c :: cs => by
    rw [List.map_cons, trimRight_cons, trimRight_cons, trimRight_map_ws f hf cs]
    cases trimRight cs with
    | nil =>
      by_cases h : isJsWs c
      · simp [hf c, h]
      · simp [hf c, h]
    | cons d ds => simp

theorem trim_map_ws (f : Char → Char) (hf : ∀ c, isJsWs (f c) = isJsWs c) (l : Str) :
    trim (l.map f) = (trim l).map f := by
  unfold trim
  rw [trimLeft_map_ws f hf, trimRight_map_ws f hf]

theorem map_toLower_toLower (x : Str) :
    (x.map Char.toLower).map Char.toLower = x.map Char.toLower := by
  rw [List.map_map]
  exact List.map_congr_left (fun a _ => toLower_toLower a)

/-- C7: the default normalize (Unicode canonical-equivalence normalization,
case-folding, trimming of leading/trailing whitespace) is idempotent:
normalize(normalize(x)) = normalize(x) for every string x. -/
theorem c7_normalize_idempotent (x : Str) :
    defaultNormalize (defaultNormalize x) = defaultNormalize x := by
  unfold defaultNormalize nfkc
  rw [← trim_map_ws Char.toLower isJsWs_toLower (x.map Char.toLower),
    map_toLower_toLower, trim_trim]

/-! ### Supporting lemmas: tokenizer -/

theorem sep_not_word (c : Char) (h : isSepChar c = true) : isWordChar c = false := by
  simp only [isSepChar, decide_eq_true_eq] at h
  rcases h with h | h <;> rw [h] <;> decide

theorem word_not_ws (c : Char) (h : isWordChar c = true) : isJsWs c = false := by
  simp only [isWordChar, decide_eq_true_eq] at h
  simp only [isJsWs, decide_eq_false_iff_not]
  omega

theorem sep_not_ws (c : Char) (h : isSepChar c = true) : isJsWs c = false := by
  simp only [isSepChar, decide_eq_true_eq] at h
  rcases h with h | h <;> rw [h] <;> decide

theorem takeRun_fst_cons (c : Char) (cs : Str) (h : isWordChar c = true) :
    (takeRun (c :: cs)).1 = c :: (takeRun cs).1 := by
  simp [takeRun, h]

theorem takeRun_snd_cons (c : Char) (cs : Str) (h : isWordChar c = true) :
    (takeRun (c :: cs)).2 = (takeRun cs).2 := by
  simp [takeRun, h]

theorem takeRun_word : ∀ (l : Str), ∀ c ∈ (takeRun l).1, isWordChar c = true
  | [], c, h => by simp [takeRun] at h
  | c0 :: cs, c, h => by
    by_cases h0 : isWordChar c0
    · rw [takeRun_fst_cons c0 cs h0] at h
      rcases List.mem_cons.mp h with h | h
      · rw [h]; exact h0
      · exact takeRun_word cs c h
    · simp [takeRun, h0] at h

theorem acceptsTok_true_word (c : Char) (hw : isWordChar c = true) (x : Str) :
    acceptsTok true (c :: x) = acceptsTok false x := by
  simp [acceptsTok, hw]

theorem acceptsTok_false_sep (c : Char) (hsep : isSepChar c = true) (x : Str) :
    acceptsTok false (c :: x) = acceptsTok true x := by
  simp [acceptsTok, sep_not_word c hsep, hsep]

theorem acceptsTok_false_append (w : Str) (hw : ∀ c ∈ w, isWordChar c = true) (m : Str) :
    acceptsTok false (w ++ m) = acceptsTok false m := by
  induction w with
  | nil => rfl
  | cons c cs ih =>
    have hc : isWordChar c = true := hw c (by simp)
    rw [List.cons_append]
    simp only [acceptsTok, hc, if_true]
    exact ih (fun c' h' => hw c' (by simp [h']))

theorem munchF_accepts : ∀ (fuel : Nat) (l : Str), acceptsTok false (munchF fuel l).1 = true
  | 0, _ => rfl
  | _ + 1, [] => rfl
  | _ + 1, [_] => rfl
  | fuel + 1, c :: c2 :: cs => by
    by_cases h : isSepChar c && isWordChar c2
    · have hsep : isSepChar c = true := ((Bool.and_eq_true _ _).mp h).1
      have hw2 : isWordChar c2 = true := ((Bool.and_eq_true _ _).mp h).2
      have hmf : (munchF (fuel + 1) (c :: c2 :: cs)).1 =
          c :: ((takeRun (c2 :: cs)).1 ++ (munchF fuel (takeRun (c2 :: cs)).2).1) := by
        simp [munchF, h]
      rw [hmf, acceptsTok_false_sep c hsep, takeRun_fst_cons c2 cs hw2,
        List.cons_append, acceptsTok_true_word c2 hw2,
        acceptsTok_false_append _ (takeRun_word cs) _]
      exact munchF_accepts fuel _
    · simp [munchF, h, acceptsTok]

theorem tokenScanF_accepts : ∀ (fuel : Nat) (l : Str), ∀ t ∈ tokenScanF fuel l,
    acceptsPattern t = true
  | 0, _, t, h => by simp [tokenScanF] at h
  | _ + 1, [], t, h => by simp [tokenScanF] at h
  | fuel + 1, c :: cs, t, h => by
    by_cases h0 : isWordChar c
    · have hts : tokenScanF (fuel + 1) (c :: cs) =
          ((takeRun (c :: cs)).1 ++ (munchF fuel (takeRun (c :: cs)).2).1) ::
            tokenScanF fuel (munchF fuel (takeRun (c :: cs)).2).2 := by
        simp [tokenScanF, h0]
      rw [hts] at h
      rcases List.mem_cons.mp h with h | h
      · rw [h]
        unfold acceptsPattern
        rw [takeRun_fst_cons c cs h0, List.cons_append, acceptsTok_true_word c h0,
          acceptsTok_false_append _ (takeRun_word cs) _]
        exact munchF_accepts fuel _
      · exact tokenScanF_accepts fuel _ t h
    · have hts : tokenScanF (fuel + 1) (c :: cs) = tokenScanF fuel cs := by
        simp [tokenScanF, h0]
      rw [hts] at h
      exact tokenScanF_accepts fuel cs t h

theorem acceptsTok_chars : ∀ (b : Bool) (t : Str), acceptsTok b t = true →
    ∀ c ∈ t, isWordChar c = true ∨ isSepChar c = true
  | true, [], _, c, hc => by simp at hc
  | false, [], _, c, hc => by simp at hc
  | true, c0 :: cs, h, c, hc => by
    simp only [acceptsTok, Bool.and_eq_true] at h
    rcases List.mem_cons.mp hc with hc | hc
    · rw [hc]; exact Or.inl h.1
    · exact acceptsTok_chars false cs h.2 c hc
  | false, c0 :: cs, h, c, hc => by
    by_cases h0 : isWordChar c0
    · simp only [acceptsTok, h0, if_true] at h
      rcases List.mem_cons.mp hc with hc | hc
      · rw [hc]; exact Or.inl h0
      · exact acceptsTok_chars false cs h c hc
    · simp [acceptsTok, h0] at h
      rcases List.mem_cons.mp hc with hc | hc
      · rw [hc]; exact Or.inr h.1
      · exact acceptsTok_chars true cs h.2 c hc

theorem acceptsPattern_ne_nil (t : Str) (h : acceptsPattern t = true) : t ≠ [] := by
  intro he
  rw [he] at h
  simp [acceptsPattern, acceptsTok] at h

/-- C4: the default tokenize first normalizes, then returns the regex matches
over the normalized text; every returned token matches the token pattern
(one or more alphanumerics, optionally joined by single internal hyphens or
apostrophes), and no token is empty or contains whitespace.  Totality is
inherent: `defaultTokenize` is a total Lean function. -/
theorem c4_default_tokenize (s : Str) :
    defaultTokenize s = tokenScan (defaultNormalize s) ∧
    ∀ t ∈ defaultTokenize s, acceptsPattern t = true ∧ t ≠ [] ∧
      ∀ c ∈ t, isJsWs c = false := by
  refine ⟨rfl, fun t ht => ?_⟩
  have hacc : acceptsPattern t = true := tokenScanF_accepts _ _ t ht
  refine ⟨hacc, acceptsPattern_ne_nil t hacc, fun c hc => ?_⟩
  rcases acceptsTok_chars true t hacc c hc with h | h
  · exact word_not_ws c h
  · exact sep_not_ws c h

/-- Witness for C4 at a concrete input. -/
theorem c4_default_tokenize_witness :
    acceptsPattern ("co-op's".toList) = true ∧ "co-op's".toList ≠ [] ∧
      ∀ c ∈ "co-op's".toList, isJsWs c = false :=
  (c4_default_tokenize (" Co-Op's world ".toList)).2 ("co-op's".toList) (by decide)

/-! ### Supporting lemmas: quote-escaping (claim C9) -/

theorem replaceEach_append (f : Char → Str) :
    ∀ (a b : Str), replaceEach f (a ++ b) = replaceEach f a ++ replaceEach f b
  | [], _ => rfl
  | c :: cs, b => by
    show f c ++ replaceEach f (cs ++ b) = (f c ++ replaceEach f cs) ++ replaceEach f b
    rw [replaceEach_append f cs b, List.append_assoc]

theorem escPair_cons (c : Char) (s : Str) :
    replaceEach escQuote (replaceEach escBackslash (c :: s)) =
      (if c = '\\' then ['\\', '\\'] else if c = '"' then ['\\', '"'] else [c]) ++
        replaceEach escQuote (replaceEach escBackslash s) := by
  show replaceEach escQuote (escBackslash c ++ replaceEach escBackslash s) = _
  rw [replaceEach_append]
  congr 1
  by_cases h1 : c = '\\'
  · simp [escBackslash, escQuote, h1, replaceEach]
  · by_cases h2 : c = '"'
    · simp [escBackslash, escQuote, h1, h2, replaceEach]
    · simp [escBackslash, escQuote, h1, h2, replaceEach]

theorem unescapeInner_cons2 (a b : Char) (rest : Str) :
    unescapeInner (a :: b :: rest) =
      if a = '\\' then b :: unescapeInner rest else a :: unescapeInner (b :: rest) := rfl

theorem unescapeInner_cons_ne (c : Char) (h : ¬ c = '\\') (rest : Str) :
    unescapeInner (c :: rest) = c :: unescapeInner rest := by
  cases rest with
  | nil => rfl
  | cons b bs => rw [unescapeInner_cons2, if_neg h]

theorem unescape_escape : ∀ (s : Str),
    unescapeInner (replaceEach escQuote (replaceEach escBackslash s)) = s
  | [] => rfl
  | c :: s => by
    rw [escPair_cons]
    by_cases h1 : c = '\\'
    · rw [if_pos h1, List.cons_append, List.cons_append, List.nil_append,
        unescapeInner_cons2, if_pos rfl, unescape_escape s, h1]
    · rw [if_neg h1]
      by_cases h2 : c = '"'
      · rw [if_pos h2, List.cons_append, List.cons_append, List.nil_append,
          unescapeInner_cons2, if_pos rfl, unescape_escape s, h2]
      · rw [if_neg h2, List.cons_append, List.nil_append,
          unescapeInner_cons_ne c h1, unescape_escape s]

theorem unescapeClause_quoteExact (s : Str) : unescapeClause (quoteExact s) = some s := by
  show unescapeClause ('"' :: (replaceEach escQuote (replaceEach escBackslash s) ++ ['"'])) =
    some s
  show (if ('"' : Char) = '"' ∧
      (replaceEach escQuote (replaceEach escBackslash s) ++ ['"']).getLast? = some '"'
    then some (unescapeInner
      (replaceEach escQuote (replaceEach escBackslash s) ++ ['"']).dropLast)
    else none) = some s
  rw [if_pos ⟨rfl, List.getLast?_concat _⟩, List.dropLast_concat, unescape_escape]

/-- C9: quote-escaping wraps the phrase in double quotes with every inner
backslash doubled and every inner double quote prefixed by a backslash (that
is `quoteExact`'s definition); de-escaping an escaped clause reconstructs the
original text exactly for every clause string; and in `prepare` the escaping
is applied to every clause before deduplication: the query string is built
from the first-occurrence deduplication of the quote-escaped raw clause
list. -/
theorem c9_quote_escaping :
    (∀ s : Str, unescapeClause (quoteExact s) = some s) ∧
    (∀ s : Str, quoteExact s =
      '"' :: (replaceEach escQuote (replaceEach escBackslash s) ++ ['"'])) ∧
    ∀ (b : SearchQueryBuilder) (input : Str),
      (prepare b input).queryString =
        joinSep (" OR ".toList) ((dedupFirst ((rawClauses b input).map quoteExact)).map b.wrap) := by
  refine ⟨unescapeClause_quoteExact, fun s => rfl, fun b input => ?_⟩
  unfold prepare rawClauses
  by_cases h : trim input = []
  · simp [h, dedupFirst, dedupSeen, joinSep]
  · simp only [h, if_neg, if_false]
    simp only [List.map_append, List.map_cons, List.map_nil, apply_ite (List.map quoteExact)]

/-! ### Supporting lemmas: comparator and deduplication (claim C2) -/

theorem lexLe_cons (a b : Char) (as bs : Str) :
    lexLe (a :: as) (b :: bs) =
      if a < b then true else if b < a then false else lexLe as bs := rfl

theorem lexLe_total : ∀ (a b : Str), lexLe a b = true ∨ lexLe b a = true
  | [], _ => Or.inl rfl
  | _ :: _, [] => Or.inr rfl
  | a :: as, b :: bs => by
    rcases lt_trichotomy a b with h | h | h
    · left; rw [lexLe_cons, if_pos h]
    · subst h
      rcases lexLe_total as bs with ih | ih
      · left; rw [lexLe_cons, if_neg (lt_irrefl a), if_neg (lt_irrefl a)]; exact ih
      · right; rw [lexLe_cons, if_neg (lt_irrefl a), if_neg (lt_irrefl a)]; exact ih
    · right; rw [lexLe_cons, if_pos h]

theorem lexLe_trans : ∀ (a b c : Str), lexLe a b = true → lexLe b c = true → lexLe a c = true
  | [], _, _, _, _ => rfl
  | _ :: _, [], _, h, _ => by simp [lexLe] at h
  | _ :: _, _ :: _, [], _, h => by simp [lexLe] at h
  | a :: as, b :: bs, c :: cs, h1, h2 => by
    rw [lexLe_cons] at h1 h2 ⊢
    rcases lt_trichotomy a b with hab | hab | hab
    · rcases lt_trichotomy b c with hbc | hbc | hbc
      · rw [if_pos (lt_trans hab hbc)]
      · subst hbc; rw [if_pos hab]
      · rw [if_neg (lt_asymm hbc), if_pos hbc] at h2; cases h2
    · subst hab
      rcases lt_trichotomy a c with hbc | hbc | hbc
      · rw [if_pos hbc]
      · subst hbc
        rw [if_neg (lt_irrefl a), if_neg (lt_irrefl a)] at h1 h2 ⊢
        exact lexLe_trans as bs cs h1 h2
      · rw [if_neg (lt_asymm hbc), if_pos hbc] at h2; cases h2
    · rw [if_neg (lt_asymm hab), if_pos hab] at h1; cases h1

instance : IsTotal Str matchOrder :=
  ⟨fun a b => by
    unfold matchOrder
    rcases lt_trichotomy a.length b.length with h | h | h
    · exact Or.inr (Or.inl h)
    · rcases lexLe_total a b with hl | hl
      · exact Or.inl (Or.inr ⟨h, hl⟩)
      · exact Or.inr (Or.inr ⟨h.symm, hl⟩)
    · exact Or.inl (Or.inl h)⟩

instance : IsTrans Str matchOrder :=
  ⟨fun a b c hab hbc => by
    unfold matchOrder at hab hbc ⊢
    rcases hab with h1 | ⟨h1, h1'⟩ <;> rcases hbc with h2 | ⟨h2, h2'⟩
    · exact Or.inl (lt_trans h2 h1)
    · exact Or.inl (h2 ▸ h1)
    · exact Or.inl (by omega)
    · exact Or.inr ⟨h1.trans h2, lexLe_trans a b c h1' h2'⟩⟩

theorem dedupSeen_not_mem {α : Type} [DecidableEq α] :
    ∀ (seen l : List α) (x : α), x ∈ seen → x ∉ dedupSeen seen l
  | _, [], _, _ => by simp [dedupSeen]
  | seen, y :: ys, x, hx => by
    by_cases hy : y ∈ seen
    · simpa [dedupSeen, hy] using dedupSeen_not_mem seen ys x hx
    · simp only [dedupSeen, hy, if_neg not_false, List.mem_cons, not_or]
      refine ⟨fun he => hy (he ▸ hx), ?_⟩
      exact dedupSeen_not_mem (y :: seen) ys x (List.mem_cons_of_mem y hx)

theorem dedupSeen_nodup {α : Type} [DecidableEq α] :
    ∀ (seen l : List α), (dedupSeen seen l).Nodup
  | _, [] => List.nodup_nil
  | seen, y :: ys => by
    by_cases hy : y ∈ seen
    · simpa [dedupSeen, hy] using dedupSeen_nodup seen ys
    · simp only [dedupSeen, hy, if_neg not_false, List.nodup_cons]
      exact ⟨dedupSeen_not_mem (y :: seen) ys y (by simp), dedupSeen_nodup (y :: seen) ys⟩

theorem dedupFirst_nodup {α : Type} [DecidableEq α] (l : List α) : (dedupFirst l).Nodup :=
  dedupSeen_nodup [] l

/-- C2: for every automaton and token sequence, the list `findAll` returns
has no duplicate strings and is sorted by the match order: descending
character length, ties broken by ascending lexicographic order. -/
theorem c2_findAll_nodup_sorted (ac : TokenAC) (tokens : List Str) :
    (findAll ac tokens).Nodup ∧ (findAll ac tokens).Sorted matchOrder := by
  unfold findAll
  by_cases h : ac.next.length = 1
  · simp [h]
  · rw [if_neg h]
    constructor
    · exact ((List.perm_insertionSort matchOrder _).symm).nodup (dedupFirst_nodup _)
    · exact List.sorted_insertionSort matchOrder _

/-! ### Supporting lemmas: quote balance and the empty query (claims C5, C8, C3) -/

theorem trimRight_eq_nil : ∀ (l : Str), trimRight l = [] → ∀ c ∈ l, isJsWs c = true
  | [], _, c, hc => by simp at hc
  | c0 :: cs, h, c, hc => by
    rw [trimRight_cons] at h
    cases hcs : trimRight cs with
    | nil =>
      rw [hcs] at h
      have hws : isJsWs c0 = true := by
        by_cases hw : isJsWs c0
        · exact hw
        · rw [if_neg hw] at h; cases h
      rcases List.mem_cons.mp hc with hc | hc
      · rw [hc]; exact hws
      · exact trimRight_eq_nil cs hcs c hc
    | cons d ds => rw [hcs] at h; cases h

theorem trim_eq_nil_all_ws (l : Str) (h : trim l = []) : ∀ c ∈ l, isJsWs c = true := by
  intro c hc
  have hdecomp := List.takeWhile_append_dropWhile isJsWs l
  rw [← hdecomp] at hc
  rcases List.mem_append.mp hc with h1 | h1
  · exact List.mem_takeWhile_imp h1
  · exact trimRight_eq_nil (trimLeft l) h c h1

theorem countStraightAux_all_ws : ∀ (l : Str), (∀ c ∈ l, isJsWs c = true) →
    ∀ prev, countStraightAux prev l = 0
  | [], _, _ => rfl
  | c :: cs, h, prev => by
    have hc : ¬ (c = '"' ∧ prev ≠ some '\\') := by
      rintro ⟨rfl, -⟩
      have := h '"' (by simp)
      simp [isJsWs] at this
    simp only [countStraightAux, hc, if_neg not_false, if_false]
    rw [countStraightAux_all_ws cs (fun c' hc' => h c' (by simp [hc'])) (some c)]

theorem count_curly_all_ws (l : Str) (q : Char) (hq : isJsWs q = false)
    (h : ∀ c ∈ l, isJsWs c = true) : l.count q = 0 := by
  rw [List.count_eq_zero]
  intro hmem
  rw [h q hmem] at hq
  cases hq

/-- C5: `prepare` reports `hadUnbalancedQuotes = false` exactly when the
count of unescaped straight quotes is even and the counts of opening and
closing curly marks agree; making the straight count odd, or the curly counts
unequal, makes it true. -/
theorem c5_quote_balance (b : SearchQueryBuilder) (input : Str) :
    ((prepare b input).hadUnbalancedQuotes = false ↔
      (countStraightQuotes input % 2 = 0 ∧ input.count '“' = input.count '”')) ∧
    (countStraightQuotes input % 2 = 1 → (prepare b input).hadUnbalancedQuotes = true) ∧
    (input.count '“' ≠ input.count '”' → (prepare b input).hadUnbalancedQuotes = true) := by
  have main : (prepare b input).hadUnbalancedQuotes = false ↔
      (countStraightQuotes input % 2 = 0 ∧ input.count '“' = input.count '”') := by
    by_cases h : trim input = []
    · have hws := trim_eq_nil_all_ws input h
      have h1 : countStraightQuotes input = 0 := countStraightAux_all_ws input hws none
      have h2 : input.count '“' = 0 := count_curly_all_ws input '“' (by decide) hws
      have h3 : input.count '”' = 0 := count_curly_all_ws input '”' (by decide) hws
      simp [prepare, h, h1, h2, h3]
    · simp [prepare, h, hasBalancedStraightQuotes, hasBalancedCurlyQuotes]
  refine ⟨main, fun hodd => ?_, fun hne => ?_⟩
  · cases hx : (prepare b input).hadUnbalancedQuotes with
    | false => exact absurd (main.mp hx).1 (by omega)
    | true => rfl
  · cases hx : (prepare b input).hadUnbalancedQuotes with
    | false => exact absurd (main.mp hx).2 hne
    | true => rfl

/-- Witness for C5 at concrete inputs: one stray straight quote, and one
stray curly opener, each reported unbalanced. -/
theorem c5_quote_balance_witness :
    (prepare plainBuilder ("a\"b".toList)).hadUnbalancedQuotes = true ∧
    (prepare plainBuilder ("a“b".toList)).hadUnbalancedQuotes = true :=
  ⟨(c5_quote_balance plainBuilder ("a\"b".toList)).2.1 (by decide),
    (c5_quote_balance plainBuilder ("a“b".toList)).2.2 (by decide)⟩

theorem dedupFirst_cons {α : Type} [DecidableEq α] (x : α) (xs : List α) :
    dedupFirst (x :: xs) = x :: dedupSeen [x] xs := by
  simp [dedupFirst, dedupSeen]

theorem joinSep_ne_nil (sep : Str) (y : Str) (ys : List Str) (hy : y ≠ []) :
    joinSep sep (y :: ys) ≠ [] := by
  cases ys with
  | nil => simpa [joinSep] using hy
  | cons z zs =>
    intro h
    exact hy (List.append_eq_nil.mp (List.append_eq_nil.mp h).1).1

theorem prepare_queryString_ne (b : SearchQueryBuilder) (input : Str)
    (h : trim input ≠ []) (hw : b.wrap = defaultWrap) :
    (prepare b input).queryString ≠ [] := by
  unfold prepare
  rw [if_neg h]
  dsimp only
  rw [List.singleton_append, List.cons_append, List.cons_append,
    dedupFirst_cons, List.map_cons, hw]
  exact joinSep_ne_nil _ _ _ (by simp [defaultWrap])

/-- C8: `prepare` returns an empty query string exactly when the trimmed raw
input is empty (for the default wrap function), and on empty trimmed input
every sequence field is empty, the text fields are empty, and
`hadUnbalancedQuotes` is false. -/
theorem c8_empty_query (b : SearchQueryBuilder) (input : Str) (hw : b.wrap = defaultWrap) :
    ((prepare b input).queryString = [] ↔ trim input = []) ∧
    (trim input = [] →
      prepare b input =
        { originalInput := input, protectedPhrases := [], cleanedTokens := [],
          cleanedText := [], utteranceMatches := [], queryString := [],
          hadUnbalancedQuotes := false }) := by
  by_cases h : trim input = []
  · exact ⟨by simp [prepare, h], fun _ => by simp [prepare, h]⟩
  · exact ⟨⟨fun hq => absurd hq (prepare_queryString_ne b input h hw),
      fun hc => absurd hc h⟩, fun hc => absurd hc h⟩

/-- Witness for C8: the all-whitespace input and a nonempty input, under the
default wrap. -/
theorem c8_empty_query_witness :
    ((prepare plainBuilder ("   ".toList)).queryString = [] ↔ trim ("   ".toList) = []) ∧
    (trim ("   ".toList) = [] →
      prepare plainBuilder ("   ".toList) =
        { originalInput := "   ".toList, protectedPhrases := [], cleanedTokens := [],
          cleanedText := [], utteranceMatches := [], queryString := [],
          hadUnbalancedQuotes := false }) :=
  c8_empty_query plainBuilder ("   ".toList) rfl

/-- Counterexample to C3 as stated: on the unbalanced input `a"b` the code's
remainder (`stripStrayQuotes`, quote replaced by a space) is `a b`, while the
claimed deletion-based remainder is `ab`; the pipeline's cleaned tokens are
`[a, b]`, not the single fused token `[ab]` the deletion semantics would
produce. -/
theorem c3_counterexample :
    hasBalancedStraightQuotes ("a\"b".toList) = false ∧
    stripStrayQuotes ("a\"b".toList) = "a b".toList ∧
    removeQuotesDeleted ("a\"b".toList) = "ab".toList ∧
    (prepare plainBuilder ("a\"b".toList)).cleanedTokens = ["a".toList, "b".toList] ∧
    defaultTokenize (removeQuotesDeleted ("a\"b".toList)) = ["ab".toList] ∧
    ¬ (["a".toList, "b".toList] = ["ab".toList]) := by
  decide

/-- C3 as amended: for every input whose quotes are unbalanced (and hence
nonempty after trimming), `prepare` extracts no protected phrases, computes
the remainder by replacing every quote character (straight or curly) with a
space and collapsing whitespace runs to single spaces, trimmed
(`stripStrayQuotes`), and reports `hadUnbalancedQuotes = true` rather than
failing. -/
theorem c3_unbalanced_amended (b : SearchQueryBuilder) (input : Str)
    (h : (hasBalancedStraightQuotes input && hasBalancedCurlyQuotes input) = false)
    (ht : trim input ≠ []) :
    (prepare b input).protectedPhrases = [] ∧
    (prepare b input).cleanedTokens =
      applyStopWords b.stopWords (b.tokenize (stripStrayQuotes input)) ∧
    (prepare b input).hadUnbalancedQuotes = true := by
  unfold prepare
  rw [if_neg ht]
  simp only [h]
  exact ⟨rfl, rfl, rfl⟩

/-- Witness for the amended C3 at the concrete unbalanced input `a"b`. -/
theorem c3_unbalanced_amended_witness :
    (prepare plainBuilder ("a\"b".toList)).protectedPhrases = [] ∧
    (prepare plainBuilder ("a\"b".toList)).cleanedTokens =
      applyStopWords plainBuilder.stopWords
        (plainBuilder.tokenize (stripStrayQuotes ("a\"b".toList))) ∧
    (prepare plainBuilder ("a\"b".toList)).hadUnbalancedQuotes = true :=
  c3_unbalanced_amended plainBuilder ("a\"b".toList) (by decide) (by decide)

/-! ### Supporting lemmas: quoted-phrase extraction (claim C10) -/

theorem findClose_spec : ∀ (q : Str) (prev : Char) (r : Str),
    '"' ∉ q → '\\' ∉ q → prev ≠ '\\' →
    findClose '"' prev (q ++ '"' :: r) = some (q, r)
  | [], prev, r, _, _, hprev => by
    simp [findClose, hprev]
  | c :: q, prev, r, hq, hb, hprev => by
    have hc : ¬ (c = '"' ∧ prev ≠ '\\') := by
      rintro ⟨rfl, -⟩
      exact hq (List.mem_cons_self _ _)
    have hcb : c ≠ '\\' := fun he => hb (he ▸ List.mem_cons_self c q)
    rw [List.cons_append]
    show (if c = '"' ∧ prev ≠ '\\' then some ([], q ++ '"' :: r)
      else (findClose '"' c (q ++ '"' :: r)).map (fun p => (c :: p.1, p.2))) = _
    rw [if_neg hc,
      findClose_spec q c r (fun h => hq (List.mem_cons_of_mem c h))
        (fun h => hb (List.mem_cons_of_mem c h)) hcb]
    rfl

theorem findClose_length : ∀ (e prev : Char) (l ins aft : Str),
    findClose e prev l = some (ins, aft) → ins.length + aft.length + 1 = l.length
  | e, prev, [], ins, aft, h => by simp [findClose] at h
  | e, prev, c :: cs, ins, aft, h => by
    by_cases hc : c = e ∧ prev ≠ '\\'
    · rw [show findClose e prev (c :: cs) = some ([], cs) by simp [findClose, hc]] at h
      injection h with h
      injection h with h1 h2
      subst h1; subst h2
      simp
    · rw [show findClose e prev (c :: cs) =
          (findClose e c cs).map (fun p => (c :: p.1, p.2)) by simp [findClose, hc]] at h
      rcases Option.map_eq_some'.mp h with ⟨p, hp, he⟩
      have ih := findClose_length e c cs p.1 p.2 (by rw [hp])
      injection he with h1 h2
      subst h1; subst h2
      simp only [List.length_cons]
      omega

theorem extractLoopF_nil (fuel : Nat) : extractLoopF fuel [] = ([], []) := by
  cases fuel <;> rfl

theorem extractLoopF_cons (fuel : Nat) (c : Char) (cs : Str) :
    extractLoopF (fuel + 1) (c :: cs) =
      if c = '"' ∨ c = '“' then
        match findClose (if c = '"' then '"' else '”') c cs with
        | some (inside, after) =>
          let r := extractLoopF fuel after
          (if trim inside ≠ [] then inside :: r.1 else r.1, r.2)
        | none =>
          let r := extractLoopF fuel cs
          (r.1, c :: r.2)
      else
        let r := extractLoopF fuel cs
        (r.1, c :: r.2) := rfl

theorem extractLoopF_fuel : ∀ (fuel fuel' : Nat) (l : Str),
    l.length ≤ fuel → l.length ≤ fuel' → extractLoopF fuel l = extractLoopF fuel' l
  | _, _, [], _, _ => by rw [extractLoopF_nil, extractLoopF_nil]
  | 0, _, c :: cs, h, _ => by simp at h
  | _ + 1, 0, c :: cs, _, h => by simp at h
  | fuel + 1, fuel' + 1, c :: cs, h, h' => by
    rw [extractLoopF_cons, extractLoopF_cons]
    have hcs : cs.length ≤ fuel := by simpa using h
    have hcs' : cs.length ≤ fuel' := by simpa using h'
    by_cases hc : c = '"' ∨ c = '“'
    · rw [if_pos hc, if_pos hc]
      cases hf : findClose (if c = '"' then '"' else '”') c cs with
      | some p =>
        have hlen := findClose_length _ _ _ p.1 p.2 (by rw [hf])
        have hr : extractLoopF fuel p.2 = extractLoopF fuel' p.2 :=
          extractLoopF_fuel fuel fuel' p.2 (by omega) (by omega)
        simp only [hr]
      | none =>
        have hr : extractLoopF fuel cs = extractLoopF fuel' cs :=
          extractLoopF_fuel fuel fuel' cs hcs hcs'
        simp only [hr]
    · rw [if_neg hc, if_neg hc]
      have hr : extractLoopF fuel cs = extractLoopF fuel' cs :=
        extractLoopF_fuel fuel fuel' cs hcs hcs'
      simp only [hr]

theorem extractLoopF_pre : ∀ (p : Str), (∀ c ∈ p, ¬ (c = '"' ∨ c = '“')) →
    ∀ (fuel : Nat) (rest : Str),
    extractLoopF (p.length + fuel) (p ++ rest) =
      ((extractLoopF fuel rest).1, p ++ (extractLoopF fuel rest).2)
  | [], _, fuel, rest => by simp
  | c :: p, hp, fuel, rest => by
    have hc : ¬ (c = '"' ∨ c = '“') := hp c (by simp)
    have hlen : (c :: p).length + fuel = (p.length + fuel) + 1 := by
      simp [List.length_cons]; omega
    rw [hlen, List.cons_append, extractLoopF_cons, if_neg hc]
    dsimp only
    rw [extractLoopF_pre p (fun c' h' => hp c' (by simp [h'])) fuel rest]
    simp

/-- C10: in the balanced-quote path a quoted span (its quote marks and inner
text) is removed with no separating character inserted: for a quote-free
prefix `p` and a blank-free inner text `q` (no straight quote, no backslash),
extraction of `p ++ '"' :: q ++ '"' :: r` yields `q` as a protected phrase
and a remainder that concatenates `p` directly with the remainder of `r`;
concretely, `prepare` on `ab"x y"cd` produces the single fused token `abcd`. -/
theorem c10_quoted_span_fusion :
    (∀ (p q r : Str), (∀ c ∈ p, ¬ (c = '"' ∨ c = '“')) → '"' ∉ q → '\\' ∉ q →
      trim q ≠ [] →
      extractQuotedPhrasesBalanced (p ++ ('"' :: (q ++ ('"' :: r)))) =
        (q :: (extractLoopF (r.length + 1) r).1,
          trim (p ++ (extractLoopF (r.length + 1) r).2))) ∧
    (prepare plainBuilder ("ab\"x y\"cd".toList)).cleanedTokens = ["abcd".toList] ∧
    (prepare plainBuilder ("ab\"x y\"cd".toList)).protectedPhrases = ["x y".toList] := by
  refine ⟨fun p q r hp hq hb htr => ?_, by decide, by decide⟩
  unfold extractQuotedPhrasesBalanced
  have hlen : (p ++ ('"' :: (q ++ ('"' :: r)))).length + 1 =
      p.length + (q.length + r.length + 3) := by
    simp [List.length_append]
    omega
  rw [hlen]
  dsimp only
  rw [extractLoopF_pre p hp (q.length + r.length + 3) ('"' :: (q ++ ('"' :: r)))]
  have h2 : q.length + r.length + 3 = (q.length + r.length + 2) + 1 := by omega
  rw [h2, extractLoopF_cons, if_pos (Or.inl rfl)]
  rw [show (if ('"' : Char) = '"' then '"' else '”') = '"' from rfl]
  rw [findClose_spec q '"' r hq hb (by decide)]
  dsimp only
  rw [if_pos htr,
    extractLoopF_fuel (q.length + r.length + 2) (r.length + 1) r (by omega) (by omega)]

/-- Witness for C10 at the concrete decomposition `ab`, `x y`, `cd`. -/
theorem c10_quoted_span_fusion_witness :
    extractQuotedPhrasesBalanced
        ("ab".toList ++ ('"' :: ("x y".toList ++ ('"' :: "cd".toList)))) =
      ("x y".toList :: (extractLoopF ("cd".toList.length + 1) "cd".toList).1,
        trim ("ab".toList ++ (extractLoopF ("cd".toList.length + 1) "cd".toList).2)) :=
  c10_quoted_span_fusion.1 ("ab".toList) ("x y".toList) ("cd".toList)
    (by decide) (by decide) (by decide) (by decide)

/-! ### Supporting lemmas: best-candidate map (claim C1) -/

theorem mem_lookupB : ∀ (m : List (Nat × Nat × Str)), (m.map Prod.fst).Nodup →
    ∀ x : Nat × Nat × Str, x ∈ m → lookupB m x.1 = some x.2
  | [], _, x, hx => by simp at hx
  | e :: es, hn, x, hx => by
    rcases List.mem_cons.mp hx with hx | hx
    · subst hx
      simp [lookupB]
    · have hne : e.1 ≠ x.1 := by
        intro he
        have : x.1 ∈ es.map Prod.fst := List.mem_map_of_mem Prod.fst hx
        rw [List.map_cons, List.nodup_cons] at hn
        exact hn.1 (he ▸ this)
      rw [show lookupB (e :: es) x.1 = if e.1 = x.1 then some e.2 else lookupB es x.1 from rfl,
        if_neg hne]
      exact mem_lookupB es (by rw [List.map_cons, List.nodup_cons] at hn; exact hn.2) x hx

theorem setBest_keys : ∀ (m : List (Nat × Nat × Str)) (c : Nat × Nat × Str),
    (setBest m c).map Prod.fst =
      if c.1 ∈ m.map Prod.fst then m.map Prod.fst else m.map Prod.fst ++ [c.1]
  | [], c => by simp [setBest]
  | e :: es, c => by
    by_cases he : e.1 = c.1
    · by_cases hend : e.2.1 < c.2.1
      · simp [setBest, he, hend, List.map_cons]
      · simp [setBest, he, hend, List.map_cons]
    · have hce : ¬ c.1 = e.1 := fun h => he h.symm
      rw [show setBest (e :: es) c = e :: setBest es c by simp [setBest, he],
        List.map_cons, setBest_keys es c, List.map_cons]
      by_cases hc : c.1 ∈ es.map Prod.fst
      · simp [hc, hce]
      · simp [hc, hce]

theorem setBest_keys_nodup (m : List (Nat × Nat × Str)) (c : Nat × Nat × Str)
    (hn : (m.map Prod.fst).Nodup) : ((setBest m c).map Prod.fst).Nodup := by
  rw [setBest_keys]
  by_cases hc : c.1 ∈ m.map Prod.fst
  · rwa [if_pos hc]
  · rw [if_neg hc]
    simp [List.nodup_append, hn, hc]

theorem setBest_lookup : ∀ (m : List (Nat × Nat × Str)) (c : Nat × Nat × Str) (s : Nat),
    lookupB (setBest m c) s =
      if s = c.1 then
        match lookupB m s with
        | none => some c.2
        | some v => if v.1 < c.2.1 then some c.2 else some v
      else lookupB m s
  | [], c, s => by
    by_cases h : s = c.1
    · subst h; simp [setBest, lookupB]
    · have h' : ¬ c.1 = s := fun hh => h hh.symm
      simp [setBest, lookupB, h, h']
  | e :: es, c, s => by
    by_cases he : e.1 = c.1
    · by_cases hend : e.2.1 < c.2.1
      · by_cases hs : s = c.1
        · subst hs
          simp [setBest, he, hend, lookupB]
        · have h1 : ¬ c.1 = s := fun hh => hs hh.symm
          have h2 : ¬ e.1 = s := he ▸ h1
          simp [setBest, he, hend, lookupB, hs, h1, h2]
      · by_cases hs : s = c.1
        · subst hs
          simp [setBest, he, hend, lookupB]
        · have h2 : ¬ e.1 = s := fun hh => hs (he ▸ hh).symm
          simp [setBest, he, hend, lookupB, hs, h2]
    · by_cases hs : e.1 = s
      · have h1 : ¬ s = c.1 := fun hh => he (hs.trans hh)
        simp [setBest, he, lookupB, hs, h1]
      · rw [show setBest (e :: es) c = e :: setBest es c by simp [setBest, he],
          show lookupB (e :: setBest es c) s =
            if e.1 = s then some e.2 else lookupB (setBest es c) s from rfl,
          if_neg hs, setBest_lookup es c s,
          show lookupB (e :: es) s = if e.1 = s then some e.2 else lookupB es s from rfl,
          if_neg hs]

theorem setBest_inv (m : List (Nat × Nat × Str)) (c : Nat × Nat × Str)
    (seen : List (Nat × Nat × Str))
    (hsound : ∀ s e ph, lookupB m s = some (e, ph) →
      (s, e, ph) ∈ seen ∧ ∀ e' ph', (s, e', ph') ∈ seen → e' ≤ e)
    (hnone : ∀ s, lookupB m s = none → ∀ e' ph', (s, e', ph') ∉ seen) :
    (∀ s e ph, lookupB (setBest m c) s = some (e, ph) →
      (s, e, ph) ∈ seen ++ [c] ∧ ∀ e' ph', (s, e', ph') ∈ seen ++ [c] → e' ≤ e) ∧
    (∀ s, lookupB (setBest m c) s = none → ∀ e' ph', (s, e', ph') ∉ seen ++ [c]) := by
  constructor
  · intro s e ph hl
    rw [setBest_lookup] at hl
    by_cases hs : s = c.1
    · rw [if_pos hs] at hl
      subst hs
      cases hm : lookupB m c.1 with
      | none =>
        rw [hm] at hl
        injection hl with hl
        have hce : (c.1, e, ph) = c := by rw [← hl]
        constructor
        · exact List.mem_append_right seen (hce ▸ List.mem_singleton_self c)
        · intro e' ph' hmem
          rcases List.mem_append.mp hmem with hmem | hmem
          · exact absurd hmem (hnone c.1 hm e' ph')
          · have := List.mem_singleton.mp hmem
            have he' : e' = c.2.1 := by rw [← this]
            have he : e = c.2.1 := by rw [hl]
            omega
      | some v =>
        simp only [hm] at hl
        by_cases hv : v.1 < c.2.1
        · rw [if_pos hv] at hl
          injection hl with hl
          have hce : (c.1, e, ph) = c := by rw [← hl]
          have he : e = c.2.1 := by rw [hl]
          constructor
          · exact List.mem_append_right seen (hce ▸ List.mem_singleton_self c)
          · intro e' ph' hmem
            rcases List.mem_append.mp hmem with hmem | hmem
            · have hb := (hsound c.1 v.1 v.2 (by rw [hm])).2 e' ph' hmem
              omega
            · have := List.mem_singleton.mp hmem
              have he' : e' = c.2.1 := by rw [← this]
              omega
        · rw [if_neg hv] at hl
          injection hl with hl
          have hsv := hsound c.1 v.1 v.2 (by rw [hm])
          have hv1 : v.1 = e := by rw [hl]
          have hv2 : v.2 = ph := by rw [hl]
          constructor
          · exact List.mem_append_left _ (by rw [← hv1, ← hv2]; exact hsv.1)
          · intro e' ph' hmem
            rcases List.mem_append.mp hmem with hmem | hmem
            · have := hsv.2 e' ph' hmem
              omega
            · have := List.mem_singleton.mp hmem
              have he' : e' = c.2.1 := by rw [← this]
              omega
    · rw [if_neg hs] at hl
      have hsv := hsound s e ph hl
      constructor
      · exact List.mem_append_left _ hsv.1
      · intro e' ph' hmem
        rcases List.mem_append.mp hmem with hmem | hmem
        · exact hsv.2 e' ph' hmem
        · have := List.mem_singleton.mp hmem
          exact absurd (show s = c.1 by rw [← this]) hs
  · intro s hl e' ph' hmem
    rw [setBest_lookup] at hl
    by_cases hs : s = c.1
    · rw [if_pos hs] at hl
      cases hm : lookupB m s with
      | none => rw [hm] at hl; cases hl
      | some v =>
        simp only [hm] at hl
        by_cases hv : v.1 < c.2.1
        · rw [if_pos hv] at hl; cases hl
        · rw [if_neg hv] at hl; cases hl
    · rw [if_neg hs] at hl
      rcases List.mem_append.mp hmem with hmem | hmem
      · exact hnone s hl e' ph' hmem
      · have := List.mem_singleton.mp hmem
        exact hs (show s = c.1 by rw [← this])

theorem bestFoldAux_inv : ∀ (stream seen m : List (Nat × Nat × Str)),
    (m.map Prod.fst).Nodup →
    (∀ s e ph, lookupB m s = some (e, ph) →
      (s, e, ph) ∈ seen ∧ ∀ e' ph', (s, e', ph') ∈ seen → e' ≤ e) →
    (∀ s, lookupB m s = none → ∀ e' ph', (s, e', ph') ∉ seen) →
    ((stream.foldl setBest m).map Prod.fst).Nodup ∧
    (∀ s e ph, lookupB (stream.foldl setBest m) s = some (e, ph) →
      (s, e, ph) ∈ seen ++ stream ∧
        ∀ e' ph', (s, e', ph') ∈ seen ++ stream → e' ≤ e) ∧
    (∀ s, lookupB (stream.foldl setBest m) s = none →
      ∀ e' ph', (s, e', ph') ∉ seen ++ stream)
  | [], seen, m, hn, hs, hnone => by simpa using ⟨hn, hs, hnone⟩
  | c :: rest, seen, m, hn, hs, hnone => by
    have step := setBest_inv m c seen hs hnone
    have ih := bestFoldAux_inv rest (seen ++ [c]) (setBest m c)
      (setBest_keys_nodup m c hn) step.1 step.2
    simpa [List.append_assoc] using ih

/-- C1: `findAll`'s per-start map retains, for each start index, a candidate
whose end index is maximal among every candidate emitted for that start; and
on the automaton for phrases `pre clear` and `pre clear trade`, matching the
token sequence `[pre, clear, trade]` yields exactly `["pre clear trade"]`,
the shorter overlapping match at the same start being suppressed. -/
theorem c1_longest_per_start :
    (∀ (ac : TokenAC) (tokens : List Str) (s e : Nat) (ph : Str),
      (s, e, ph) ∈ bestEntries ac tokens →
      (s, e, ph) ∈ scanCandidates ac tokens ∧
        ∀ e' ph', (s, e', ph') ∈ scanCandidates ac tokens → e' ≤ e) ∧
    findAll exC1AC exC1Toks = ["pre clear trade".toList] := by
  constructor
  · intro ac tokens s e ph hmem
    obtain ⟨hn, hsound, -⟩ := bestFoldAux_inv (scanCandidates ac tokens) [] []
      (by simp) (by intro s e ph h; simp [lookupB] at h) (by intro s h e' ph'; simp)
    have hl := mem_lookupB _ hn (s, e, ph) hmem
    have hres := hsound s e ph hl
    simpa using hres
  · decide

/-- Witness for C1: at the concrete automaton, the retained entry for start 0
ends at position 2, and the suppressed shorter candidate's end 1 is indeed
not larger. -/
theorem c1_longest_per_start_witness :
    (0, 2, "pre clear trade".toList) ∈ scanCandidates exC1AC exC1Toks ∧ (1 : Nat) ≤ 2 := by
  have h := c1_longest_per_start.1 exC1AC exC1Toks 0 2 ("pre clear trade".toList) (by decide)
  exact ⟨h.1, h.2 1 ("pre clear".toList) (by decide)⟩

/-! ### Supporting lemmas: phrase-store insertion (claim C6) -/

theorem getD_ge {α : Type} (l : List α) (n : Nat) (d : α) (h : l.length ≤ n) :
    l.getD n d = d := by
  rw [List.getD_eq_getElem?_getD, List.getElem?_eq_none h]
  rfl

theorem getD_append_lt {α : Type} (l l' : List α) (n : Nat) (d : α) (h : n < l.length) :
    (l ++ l').getD n d = l.getD n d := by
  rw [List.getD_eq_getElem?_getD, List.getD_eq_getElem?_getD, List.getElem?_append, if_pos h]

theorem getD_append_len {α : Type} (l l' : List α) (n : Nat) (d : α) (h : l.length ≤ n) :
    (l ++ l').getD n d = l'.getD (n - l.length) d := by
  rw [List.getD_eq_getElem?_getD, List.getD_eq_getElem?_getD, List.getElem?_append,
    if_neg (by omega)]

theorem getD_set_self {α : Type} (l : List α) (n : Nat) (x d : α) (h : n < l.length) :
    (l.set n x).getD n d = x := by
  rw [List.getD_eq_getElem?_getD, List.getElem?_set_self', List.getElem?_eq_getElem h]
  rfl

theorem getD_set_ne {α : Type} (l : List α) (n m : Nat) (x d : α) (h : n ≠ m) :
    (l.set n x).getD m d = l.getD m d := by
  rw [List.getD_eq_getElem?_getD, List.getD_eq_getElem?_getD, List.getElem?_set_ne h]

theorem findEdge_append : ∀ (es : List (Str × Nat)) (k0 : Str) (v0 : Nat) (t : Str),
    findEdge (es ++ [(k0, v0)]) t =
      match findEdge es t with
      | some v => some v
      | none => if k0 = t then some v0 else none
  | [], k0, v0, t => by simp [findEdge]
  | (k, v) :: es, k0, v0, t => by
    by_cases h : k = t
    · simp [findEdge, h]
    · rw [List.cons_append,
        show findEdge ((k, v) :: (es ++ [(k0, v0)])) t =
          if k = t then some v else findEdge (es ++ [(k0, v0)]) t from rfl,
        if_neg h, findEdge_append es k0 v0 t,
        show findEdge ((k, v) :: es) t = if k = t then some v else findEdge es t from rfl,
        if_neg h]

theorem extendAC_next_length (ac : TokenAC) (node : Nat) (t : Str) :
    (extendAC ac node t).next.length = ac.next.length + 1 := by
  simp [extendAC]

theorem edge_extendAC_self (ac : TokenAC) (node : Nat) (t : Str)
    (hnode : node < ac.next.length) (t' : Str) :
    edge (extendAC ac node t) node t' =
      match edge ac node t' with
      | some v => some v
      | none => if t = t' then some ac.next.length else none := by
  unfold edge extendAC
  dsimp only
  rw [getD_append_lt _ _ _ _ (by rw [List.length_set]; exact hnode),
    getD_set_self _ _ _ _ hnode, findEdge_append]

theorem edge_extendAC_ne (ac : TokenAC) (node : Nat) (t : Str) (m : Nat) (hm : m ≠ node)
    (t' : Str) : edge (extendAC ac node t) m t' = edge ac m t' := by
  unfold edge extendAC
  dsimp only
  rcases Nat.lt_or_ge m ac.next.length with h | h
  · rw [getD_append_lt _ _ _ _ (by rw [List.length_set]; exact h),
      getD_set_ne _ _ _ _ _ (fun he => hm he.symm)]
  · rw [getD_append_len _ _ _ _ (by rw [List.length_set]; exact h),
      getD_ge _ _ _ h]
    cases hd : m - (ac.next.set node ((ac.next.getD node []) ++ [(t, ac.next.length)])).length with
    | zero => rfl
    | succ k => rfl

theorem walkFrom_mono (ac ac' : TokenAC)
    (hpres : ∀ m t k, edge ac m t = some k → edge ac' m t = some k) :
    ∀ (ts : List Str) (n m : Nat), walkFrom ac n ts = some m → walkFrom ac' n ts = some m
  | [], n, m, h => h
  | t :: ts, n, m, h => by
    cases he : edge ac n t with
    | none => rw [show walkFrom ac n (t :: ts) =
        match edge ac n t with
        | some k => walkFrom ac k ts
        | none => none from rfl, he] at h; cases h
    | some k =>
      rw [show walkFrom ac n (t :: ts) =
        match edge ac n t with
        | some k => walkFrom ac k ts
        | none => none from rfl, he] at h
      rw [show walkFrom ac' n (t :: ts) =
        match edge ac' n t with
        | some k => walkFrom ac' k ts
        | none => none from rfl, hpres n t k he]
      exact walkFrom_mono ac ac' hpres ts k m h

theorem walkFrom_next_eq (ac ac' : TokenAC) (hn : ac.next = ac'.next) :
    ∀ (ts : List Str) (n : Nat), walkFrom ac n ts = walkFrom ac' n ts
  | [], _ => rfl
  | t :: ts, n => by
    have he : edge ac n t = edge ac' n t := by unfold edge; rw [hn]
    rw [show walkFrom ac n (t :: ts) =
      match edge ac n t with
      | some k => walkFrom ac k ts
      | none => none from rfl,
      show walkFrom ac' n (t :: ts) =
      match edge ac' n t with
      | some k => walkFrom ac' k ts
      | none => none from rfl, he]
    cases edge ac' n t with
    | none => rfl
    | some k => exact walkFrom_next_eq ac ac' hn ts k

theorem walkFrom_le (ac : TokenAC)
    (hlt : ∀ m t k, edge ac m t = some k → m < k ∧ k < ac.next.length) :
    ∀ (ts : List Str) (n m : Nat), walkFrom ac n ts = some m → n ≤ m
  | [], n, m, h => by injection h with h; omega
  | t :: ts, n, m, h => by
    cases he : edge ac n t with
    | none => rw [show walkFrom ac n (t :: ts) =
        match edge ac n t with
        | some k => walkFrom ac k ts
        | none => none from rfl, he] at h; cases h
    | some k =>
      rw [show walkFrom ac n (t :: ts) =
        match edge ac n t with
        | some k => walkFrom ac k ts
        | none => none from rfl, he] at h
      have := walkFrom_le ac hlt ts k m h
      have := (hlt n t k he).1
      omega

theorem walkFrom_lt_sz (ac : TokenAC)
    (hlt : ∀ m t k, edge ac m t = some k → m < k ∧ k < ac.next.length) :
    ∀ (ts : List Str) (n m : Nat), n < ac.next.length → walkFrom ac n ts = some m →
      m < ac.next.length
  | [], n, m, hn, h => by injection h with h; omega
  | t :: ts, n, m, hn, h => by
    cases he : edge ac n t with
    | none => rw [show walkFrom ac n (t :: ts) =
        match edge ac n t with
        | some k => walkFrom ac k ts
        | none => none from rfl, he] at h; cases h
    | some k =>
      rw [show walkFrom ac n (t :: ts) =
        match edge ac n t with
        | some k => walkFrom ac k ts
        | none => none from rfl, he] at h
      exact walkFrom_lt_sz ac hlt ts k m (hlt n t k he).2 h

theorem walkFrom_append_eq (ac : TokenAC) : ∀ (l₁ l₂ : List Str) (n : Nat),
    walkFrom ac n (l₁ ++ l₂) =
      match walkFrom ac n l₁ with
      | some m => walkFrom ac m l₂
      | none => none
  | [], _, _ => rfl
  | t :: l₁, l₂, n => by
    rw [List.cons_append,
      show walkFrom ac n (t :: (l₁ ++ l₂)) =
        match edge ac n t with
        | some k => walkFrom ac k (l₁ ++ l₂)
        | none => none from rfl,
      show walkFrom ac n (t :: l₁) =
        match edge ac n t with
        | some k => walkFrom ac k l₁
        | none => none from rfl]
    cases edge ac n t with
    | none => rfl
    | some k => exact walkFrom_append_eq ac l₁ l₂ k

theorem walkFrom_single (ac : TokenAC) (k : Nat) (t : Str) :
    walkFrom ac k [t] = edge ac k t := by
  show (match edge ac k t with
    | some j => walkFrom ac j []
    | none => none) = edge ac k t
  cases edge ac k t <;> rfl

theorem walk_snoc (ac : TokenAC) (l : List Str) (t : Str) (n m : Nat) :
    walkFrom ac n (l ++ [t]) = some m ↔
      ∃ k, walkFrom ac n l = some k ∧ edge ac k t = some m := by
  rw [walkFrom_append_eq]
  cases h : walkFrom ac n l with
  | none => simp
  | some k =>
    dsimp only
    rw [walkFrom_single]
    constructor
    · intro he
      exact ⟨k, rfl, he⟩
    · rintro ⟨k', hk', he⟩
      injection hk' with hk'
      rw [hk']
      exact he

theorem walk_inj (ac : TokenAC) (hS : SInv ac) :
    ∀ (n : Nat) (s₁ s₂ : List Str), walkFrom ac 0 s₁ = some n → walkFrom ac 0 s₂ = some n →
      s₁ = s₂ := by
  intro n
  induction n using Nat.strong_induction_on with
  | _ n ih =>
    intro s₁ s₂ h₁ h₂
    rcases List.eq_nil_or_concat s₁ with rfl | ⟨l₁, t₁, rfl⟩
    · injection h₁ with h₁
      subst h₁
      rcases List.eq_nil_or_concat s₂ with rfl | ⟨l₂, t₂, rfl⟩
      · rfl
      · rw [List.concat_eq_append] at h₂
        obtain ⟨k, -, he⟩ := (walk_snoc ac l₂ t₂ 0 0).mp h₂
        exact absurd (hS.edges_lt k t₂ 0 he).1 (Nat.not_lt_zero k)
    · rw [List.concat_eq_append] at h₁
      rcases List.eq_nil_or_concat s₂ with rfl | ⟨l₂, t₂, rfl⟩
      · injection h₂ with h₂
        subst h₂
        obtain ⟨k, -, he⟩ := (walk_snoc ac l₁ t₁ 0 0).mp h₁
        exact absurd (hS.edges_lt k t₁ 0 he).1 (Nat.not_lt_zero k)
      · rw [List.concat_eq_append] at h₂
        obtain ⟨k₁, hk₁, he₁⟩ := (walk_snoc ac l₁ t₁ 0 n).mp h₁
        obtain ⟨k₂, hk₂, he₂⟩ := (walk_snoc ac l₂ t₂ 0 n).mp h₂
        obtain ⟨hmeq, hteq⟩ := hS.parent_uniq k₁ t₁ k₂ t₂ n he₁ he₂
        subst hmeq
        subst hteq
        rw [List.concat_eq_append, List.concat_eq_append,
          ih k₁ (hS.edges_lt k₁ t₁ n he₁).1 l₁ l₂ hk₁ hk₂]

theorem insertPath_cons (ac : TokenAC) (node : Nat) (t : Str) (ts : List Str) :
    insertPath ac node (t :: ts) =
      match edge ac node t with
      | some child => insertPath ac child ts
      | none => insertPath (extendAC ac node t) ac.next.length ts := rfl

theorem edge_extendAC_char (ac : TokenAC) (node : Nat) (t : Str)
    (hnode : node < ac.next.length) (m : Nat) (t' : Str) (k : Nat)
    (h : edge (extendAC ac node t) m t' = some k) :
    edge ac m t' = some k ∨
      (m = node ∧ t' = t ∧ k = ac.next.length ∧ edge ac node t = none) := by
  by_cases hm : m = node
  · subst hm
    rw [edge_extendAC_self ac m t hnode t'] at h
    cases he : edge ac m t' with
    | some v => rw [he] at h; exact Or.inl h
    | none =>
      rw [he] at h
      by_cases ht : t = t'
      · rw [if_pos ht] at h
        injection h with h
        exact Or.inr ⟨rfl, ht.symm, h.symm, ht ▸ he⟩
      · rw [if_neg ht] at h; cases h
  · rw [edge_extendAC_ne ac node t m hm t'] at h
    exact Or.inl h

theorem edge_extendAC_pres (ac : TokenAC) (node : Nat) (t : Str)
    (hnode : node < ac.next.length) (m : Nat) (t' : Str) (k : Nat)
    (h : edge ac m t' = some k) : edge (extendAC ac node t) m t' = some k := by
  by_cases hm : m = node
  · subst hm
    rw [edge_extendAC_self ac m t hnode t', h]
  · rw [edge_extendAC_ne ac node t m hm t']
    exact h

theorem extendAC_SInv (ac : TokenAC) (node : Nat) (t : Str) (hS : SInv ac)
    (hnode : node < ac.next.length) : SInv (extendAC ac node t) := by
  constructor
  · show (ac.out ++ [[]]).length = _
    rw [extendAC_next_length, List.length_append, hS.out_len]
    rfl
  · rw [extendAC_next_length]; omega
  · intro m t' k h
    rw [extendAC_next_length]
    rcases edge_extendAC_char ac node t hnode m t' k h with h | ⟨he₁, -, he₃, -⟩
    · have := hS.edges_lt m t' k h
      omega
    · rw [he₁, he₃]
      omega
  · intro m₁ t₁ m₂ t₂ k h₁ h₂
    rcases edge_extendAC_char ac node t hnode m₁ t₁ k h₁ with h₁' | ⟨he₁, he₂, he₃, -⟩
    · rcases edge_extendAC_char ac node t hnode m₂ t₂ k h₂ with h₂' | ⟨-, -, hf₃, -⟩
      · exact hS.parent_uniq m₁ t₁ m₂ t₂ k h₁' h₂'
      · have := (hS.edges_lt m₁ t₁ k h₁').2
        omega
    · rcases edge_extendAC_char ac node t hnode m₂ t₂ k h₂ with h₂' | ⟨hf₁, hf₂, -, -⟩
      · have := (hS.edges_lt m₂ t₂ k h₂').2
        omega
      · exact ⟨he₁.trans hf₁.symm, he₂.trans hf₂.symm⟩

theorem outAt_extendAC_lt (ac : TokenAC) (node : Nat) (t : Str) (hS : SInv ac)
    (n : Nat) (hn : n < ac.next.length) : outAt (extendAC ac node t) n = outAt ac n := by
  show (ac.out ++ [[]]).getD n [] = _
  rw [getD_append_lt _ _ _ _ (by rw [hS.out_len]; exact hn)]
  rfl

theorem outAt_extendAC_ge (ac : TokenAC) (node : Nat) (t : Str) (hS : SInv ac)
    (n : Nat) (hn : ac.next.length ≤ n) : outAt (extendAC ac node t) n = [] := by
  show (ac.out ++ [[]]).getD n [] = []
  rw [getD_append_len _ _ _ _ (by rw [hS.out_len]; exact hn)]
  cases hd : n - ac.out.length with
  | zero => rfl
  | succ k => rfl

theorem insertPath_spec : ∀ (ts : List Str) (ac : TokenAC) (node : Nat),
    SInv ac → node < ac.next.length →
    SInv (insertPath ac node ts).1 ∧
    (insertPath ac node ts).1.phrases = ac.phrases ∧
    ac.next.length ≤ (insertPath ac node ts).1.next.length ∧
    (∀ m t k, edge ac m t = some k → edge (insertPath ac node ts).1 m t = some k) ∧
    (∀ m t k, edge (insertPath ac node ts).1 m t = some k → k < ac.next.length →
      edge ac m t = some k) ∧
    (∀ n, n < ac.next.length → outAt (insertPath ac node ts).1 n = outAt ac n) ∧
    (∀ n, ac.next.length ≤ n → outAt (insertPath ac node ts).1 n = []) ∧
    walkFrom (insertPath ac node ts).1 node ts = some (insertPath ac node ts).2 ∧
    (insertPath ac node ts).2 < (insertPath ac node ts).1.next.length ∧
    ((insertPath ac node ts).2 < ac.next.length →
      walkFrom ac node ts = some (insertPath ac node ts).2)
  | [], ac, node, hS, hnode => by
    refine ⟨hS, rfl, le_refl _, fun m t k h => h, fun m t k h _ => h,
      fun n _ => rfl, fun n hn => ?_, rfl, hnode, fun _ => rfl⟩
    show ac.out.getD n [] = []
    exact getD_ge _ _ _ (by rw [hS.out_len]; exact hn)
  | t :: ts, ac, node, hS, hnode => by
    cases hedge : edge ac node t with
    | some child =>
      have hrw : insertPath ac node (t :: ts) = insertPath ac child ts := by
        rw [insertPath_cons, hedge]
      have hchild : child < ac.next.length := (hS.edges_lt node t child hedge).2
      obtain ⟨ih1, ih2, ih3, ih4, ih5, ih6, ih7, ih8, ih9, ih10⟩ :=
        insertPath_spec ts ac child hS hchild
      rw [hrw]
      refine ⟨ih1, ih2, ih3, ih4, ih5, ih6, ih7, ?_, ih9, ?_⟩
      · rw [show walkFrom (insertPath ac child ts).1 node (t :: ts) =
          match edge (insertPath ac child ts).1 node t with
          | some k => walkFrom (insertPath ac child ts).1 k ts
          | none => none from rfl, ih4 node t child hedge]
        exact ih8
      · intro hlt
        rw [show walkFrom ac node (t :: ts) =
          match edge ac node t with
          | some k => walkFrom ac k ts
          | none => none from rfl, hedge]
        exact ih10 hlt
    | none =>
      have hrw : insertPath ac node (t :: ts) =
          insertPath (extendAC ac node t) ac.next.length ts := by
        rw [insertPath_cons, hedge]
      have hS1 : SInv (extendAC ac node t) := extendAC_SInv ac node t hS hnode
      have hsz1 : (extendAC ac node t).next.length = ac.next.length + 1 :=
        extendAC_next_length ac node t
      obtain ⟨ih1, ih2, ih3, ih4, ih5, ih6, ih7, ih8, ih9, ih10⟩ :=
        insertPath_spec ts (extendAC ac node t) ac.next.length hS1 (by omega)
      have hnew : edge (extendAC ac node t) node t = some ac.next.length := by
        rw [edge_extendAC_self ac node t hnode t, hedge, if_pos rfl]
      rw [hrw]
      refine ⟨ih1, ih2, ?_, ?_, ?_, ?_, ?_, ?_, ih9, ?_⟩
      · omega
      · intro m t' k h
        exact ih4 m t' k (edge_extendAC_pres ac node t hnode m t' k h)
      · intro m t' k h hk
        have h1 : edge (extendAC ac node t) m t' = some k := ih5 m t' k h (by omega)
        rcases edge_extendAC_char ac node t hnode m t' k h1 with h2 | ⟨-, -, rfl, -⟩
        · exact h2
        · omega
      · intro n hn
        rw [ih6 n (by omega)]
        exact outAt_extendAC_lt ac node t hS n hn
      · intro n hn
        rcases Nat.lt_or_ge n (ac.next.length + 1) with h | h
        · rw [ih6 n (by omega)]
          exact outAt_extendAC_ge ac node t hS n hn
        · exact ih7 n (by omega)
      · rw [show walkFrom (insertPath (extendAC ac node t) ac.next.length ts).1 node (t :: ts) =
          match edge (insertPath (extendAC ac node t) ac.next.length ts).1 node t with
          | some k => walkFrom (insertPath (extendAC ac node t) ac.next.length ts).1 k ts
          | none => none from rfl, ih4 node t ac.next.length hnew]
        exact ih8
      · intro hlt
        have hge : ac.next.length ≤ (insertPath (extendAC ac node t) ac.next.length ts).2 :=
          walkFrom_le _ ih1.edges_lt ts _ _ ih8
        exact absurd hlt (by omega)

theorem dedupSeen_append_mem {α : Type} [DecidableEq α] :
    ∀ (seen l : List α) (x : α), (x ∈ seen ∨ x ∈ l) →
      dedupSeen seen (l ++ [x]) = dedupSeen seen l
  | seen, [], x, hx => by
    rcases hx with hx | hx
    · simp [dedupSeen, hx]
    · simp at hx
  | seen, y :: ys, x, hx => by
    by_cases hy : y ∈ seen
    · rw [List.cons_append,
        show dedupSeen seen (y :: (ys ++ [x])) =
          if y ∈ seen then dedupSeen seen (ys ++ [x])
          else y :: dedupSeen (y :: seen) (ys ++ [x]) from rfl, if_pos hy,
        show dedupSeen seen (y :: ys) =
          if y ∈ seen then dedupSeen seen ys
          else y :: dedupSeen (y :: seen) ys from rfl, if_pos hy]
      apply dedupSeen_append_mem
      rcases hx with hx | hx
      · exact Or.inl hx
      · rcases List.mem_cons.mp hx with hx | hx
        · exact Or.inl (hx ▸ hy)
        · exact Or.inr hx
    · rw [List.cons_append,
        show dedupSeen seen (y :: (ys ++ [x])) =
          if y ∈ seen then dedupSeen seen (ys ++ [x])
          else y :: dedupSeen (y :: seen) (ys ++ [x]) from rfl, if_neg hy,
        show dedupSeen seen (y :: ys) =
          if y ∈ seen then dedupSeen seen ys
          else y :: dedupSeen (y :: seen) ys from rfl, if_neg hy]
      congr 1
      apply dedupSeen_append_mem
      rcases hx with hx | hx
      · exact Or.inl (List.mem_cons_of_mem y hx)
      · rcases List.mem_cons.mp hx with hx | hx
        · exact Or.inl (hx ▸ List.mem_cons_self y seen)
        · exact Or.inr hx

theorem dedupSeen_append_not_mem {α : Type} [DecidableEq α] :
    ∀ (seen l : List α) (x : α), x ∉ seen → x ∉ l →
      dedupSeen seen (l ++ [x]) = dedupSeen seen l ++ [x]
  | seen, [], x, hs, _ => by simp [dedupSeen, hs]
  | seen, y :: ys, x, hs, hl => by
    have hxy : x ∉ ys := fun h => hl (List.mem_cons_of_mem y h)
    by_cases hy : y ∈ seen
    · rw [List.cons_append,
        show dedupSeen seen (y :: (ys ++ [x])) =
          if y ∈ seen then dedupSeen seen (ys ++ [x])
          else y :: dedupSeen (y :: seen) (ys ++ [x]) from rfl, if_pos hy,
        show dedupSeen seen (y :: ys) =
          if y ∈ seen then dedupSeen seen ys
          else y :: dedupSeen (y :: seen) ys from rfl, if_pos hy]
      exact dedupSeen_append_not_mem seen ys x hs hxy
    · rw [List.cons_append,
        show dedupSeen seen (y :: (ys ++ [x])) =
          if y ∈ seen then dedupSeen seen (ys ++ [x])
          else y :: dedupSeen (y :: seen) (ys ++ [x]) from rfl, if_neg hy,
        show dedupSeen seen (y :: ys) =
          if y ∈ seen then dedupSeen seen ys
          else y :: dedupSeen (y :: seen) ys from rfl, if_neg hy,
        List.cons_append]
      congr 1
      refine dedupSeen_append_not_mem (y :: seen) ys x ?_ hxy
      intro h
      rcases List.mem_cons.mp h with h | h
      · exact hl (h ▸ List.mem_cons_self y ys)
      · exact hs h

theorem dedupFirst_append_mem {α : Type} [DecidableEq α] (l : List α) (x : α) (hx : x ∈ l) :
    dedupFirst (l ++ [x]) = dedupFirst l :=
  dedupSeen_append_mem [] l x (Or.inr hx)

theorem dedupFirst_append_not_mem {α : Type} [DecidableEq α] (l : List α) (x : α)
    (hx : x ∉ l) : dedupFirst (l ++ [x]) = dedupFirst l ++ [x] :=
  dedupSeen_append_not_mem [] l x (by simp) hx

theorem insertPath_of_walk : ∀ (ts : List Str) (ac : TokenAC) (node n : Nat),
    walkFrom ac node ts = some n → insertPath ac node ts = (ac, n)
  | [], ac, node, n, h => by
    injection h with h
    rw [show insertPath ac node [] = (ac, node) from rfl, h]
  | t :: ts, ac, node, n, h => by
    cases he : edge ac node t with
    | none =>
      rw [show walkFrom ac node (t :: ts) =
        match edge ac node t with
        | some k => walkFrom ac k ts
        | none => none from rfl, he] at h
      cases h
    | some child =>
      rw [show walkFrom ac node (t :: ts) =
        match edge ac node t with
        | some k => walkFrom ac k ts
        | none => none from rfl, he] at h
      rw [insertPath_cons, he]
      exact insertPath_of_walk ts ac child n h

theorem addTokens_nil (ac : TokenAC) : addTokens ac [] = ac := rfl

theorem addTokens_of_ne (ac : TokenAC) (ts : List Str) (h : ¬ ts = []) :
    addTokens ac ts =
      if (outAt (insertPath ac 0 ts).1 (insertPath ac 0 ts).2).any
          (fun pid => (insertPath ac 0 ts).1.phrases.getD pid [] = joinSep [' '] ts)
      then (insertPath ac 0 ts).1
      else { (insertPath ac 0 ts).1 with
        phrases := (insertPath ac 0 ts).1.phrases ++ [joinSep [' '] ts],
        pLens := (insertPath ac 0 ts).1.pLens ++ [ts.length],
        out := (insertPath ac 0 ts).1.out.set (insertPath ac 0 ts).2
          ((outAt (insertPath ac 0 ts).1 (insertPath ac 0 ts).2) ++
            [(insertPath ac 0 ts).1.phrases.length]) } := by
  unfold addTokens
  rw [if_neg h]

theorem addTokens_StoreInv (ac : TokenAC) (seqs : List (List Str)) (ts : List Str)
    (hI : StoreInv ac seqs) : StoreInv (addTokens ac ts) (seqs ++ [ts]) := by
  by_cases hts : ts = []
  · subst hts
    rw [addTokens_nil]
    refine ⟨hI.struct, ?_, ?_, ?_⟩
    · rw [hI.phrases_eq]
      congr 2
      simp
    · intro n pid hp
      obtain ⟨seq, hseq, hne, hw, hlt, hph⟩ := hI.out_sound n pid hp
      exact ⟨seq, List.mem_append_left _ hseq, hne, hw, hlt, hph⟩
    · intro seq hseq hne
      rcases List.mem_append.mp hseq with h | h
      · exact hI.out_complete seq h hne
      · rw [List.mem_singleton.mp h] at hne
        exact absurd rfl hne
  · obtain ⟨sp1, sp2, sp3, sp4, sp5, sp6, sp7, sp8, sp9, sp10⟩ :=
      insertPath_spec ts ac 0 hI.struct hI.struct.root_lt
    rw [addTokens_of_ne ac ts hts]
    have hfilter : List.filter (fun s => !s.isEmpty) [ts] = [ts] := by
      cases ts with
      | nil => exact absurd rfl hts
      | cons a as => rfl
    by_cases hdup : (outAt (insertPath ac 0 ts).1 (insertPath ac 0 ts).2).any
        (fun pid => (insertPath ac 0 ts).1.phrases.getD pid [] = joinSep [' '] ts) = true
    · rw [if_pos hdup]
      obtain ⟨pid, hpid, -⟩ := List.any_eq_true.mp hdup
      have hts_mem : ts ∈ seqs := by
        rcases Nat.lt_or_ge (insertPath ac 0 ts).2 ac.next.length with hlt | hge
        · rw [sp6 _ hlt] at hpid
          obtain ⟨seq, hseq, -, hw, -, -⟩ := hI.out_sound _ pid hpid
          have heq : seq = ts := walk_inj ac hI.struct _ seq ts hw (sp10 hlt)
          rw [← heq]
          exact hseq
        · rw [sp7 _ hge] at hpid
          simp at hpid
      refine ⟨sp1, ?_, ?_, ?_⟩
      · rw [sp2, hI.phrases_eq]
        congr 1
        rw [List.filter_append, hfilter,
          dedupFirst_append_mem _ _ (List.mem_filter.mpr ⟨hts_mem, by simp [hts]⟩)]
      · intro n pid' hp'
        rcases Nat.lt_or_ge n ac.next.length with hlt | hge
        · rw [sp6 n hlt] at hp'
          obtain ⟨seq, hseq, hne, hw, hplt, hph⟩ := hI.out_sound n pid' hp'
          refine ⟨seq, List.mem_append_left _ hseq, hne,
            walkFrom_mono ac _ sp4 seq 0 n hw, ?_, ?_⟩
          · rw [sp2]; exact hplt
          · rw [sp2]; exact hph
        · rw [sp7 n hge] at hp'
          simp at hp'
      · intro seq hseq hne
        have hseq' : seq ∈ seqs := by
          rcases List.mem_append.mp hseq with h | h
          · exact h
          · rw [List.mem_singleton.mp h]; exact hts_mem
        obtain ⟨n, hw, pid', hp', hph⟩ := hI.out_complete seq hseq' hne
        have hnlt : n < ac.next.length :=
          walkFrom_lt_sz ac hI.struct.edges_lt seq 0 n hI.struct.root_lt hw
        refine ⟨n, walkFrom_mono ac _ sp4 seq 0 n hw, pid', ?_, ?_⟩
        · rw [sp6 n hnlt]; exact hp'
        · rw [sp2]; exact hph
    · rw [if_neg hdup]
      have hts_not : ts ∉ seqs := by
        intro hmem
        obtain ⟨n, hw, pid, hp, hph⟩ := hI.out_complete ts hmem hts
        have hins : insertPath ac 0 ts = (ac, n) := insertPath_of_walk ts ac 0 n hw
        apply hdup
        rw [hins]
        exact List.any_eq_true.mpr ⟨pid, hp, decide_eq_true hph⟩
      have hr2lt : (insertPath ac 0 ts).2 < (insertPath ac 0 ts).1.out.length := by
        rw [sp1.out_len]; exact sp9
      refine ⟨⟨?_, sp1.root_lt, sp1.edges_lt, sp1.parent_uniq⟩, ?_, ?_, ?_⟩
      · show ((insertPath ac 0 ts).1.out.set _ _).length = (insertPath ac 0 ts).1.next.length
        rw [List.length_set, sp1.out_len]
      · show (insertPath ac 0 ts).1.phrases ++ [joinSep [' '] ts] = _
        rw [sp2, hI.phrases_eq, List.filter_append, hfilter,
          dedupFirst_append_not_mem _ _ (fun hmem => hts_not (List.mem_filter.mp hmem).1),
          List.map_append]
        rfl
      · intro n pid' hp'
        simp only [outAt] at hp'
        by_cases hn : n = (insertPath ac 0 ts).2
        · subst hn
          rw [getD_set_self _ _ _ _ hr2lt] at hp'
          rcases List.mem_append.mp hp' with hp'' | hp''
          · rcases Nat.lt_or_ge (insertPath ac 0 ts).2 ac.next.length with hlt | hge
            · rw [show (insertPath ac 0 ts).1.out.getD (insertPath ac 0 ts).2 [] =
                  outAt (insertPath ac 0 ts).1 (insertPath ac 0 ts).2 from rfl,
                sp6 _ hlt] at hp''
              obtain ⟨seq, hseq, hne, hw, hplt, hph⟩ := hI.out_sound _ pid' hp''
              refine ⟨seq, List.mem_append_left _ hseq, hne, ?_, ?_, ?_⟩
              · refine (walkFrom_next_eq ?_ (insertPath ac 0 ts).1 ?_ seq 0).trans
                  (walkFrom_mono ac _ sp4 seq 0 _ hw)
                rfl
              · show pid' < ((insertPath ac 0 ts).1.phrases ++ [joinSep [' '] ts]).length
                rw [List.length_append, sp2]
                simp only [List.length_cons, List.length_nil]
                omega
              · show ((insertPath ac 0 ts).1.phrases ++ [joinSep [' '] ts]).getD pid' [] = _
                rw [getD_append_lt _ _ _ _ (by rw [sp2]; exact hplt), sp2]
                exact hph
            · rw [show (insertPath ac 0 ts).1.out.getD (insertPath ac 0 ts).2 [] =
                  outAt (insertPath ac 0 ts).1 (insertPath ac 0 ts).2 from rfl,
                sp7 _ hge] at hp''
              simp at hp''
          · have hpid_eq : pid' = (insertPath ac 0 ts).1.phrases.length :=
              List.mem_singleton.mp hp''
            refine ⟨ts, List.mem_append_right _ (List.mem_singleton_self ts), hts, ?_, ?_, ?_⟩
            · refine (walkFrom_next_eq ?_ (insertPath ac 0 ts).1 ?_ ts 0).trans sp8
              rfl
            · show pid' < ((insertPath ac 0 ts).1.phrases ++ [joinSep [' '] ts]).length
              rw [List.length_append, hpid_eq]
              simp
            · show ((insertPath ac 0 ts).1.phrases ++ [joinSep [' '] ts]).getD pid' [] = _
              rw [hpid_eq, getD_append_len _ _ _ _ (le_refl _), Nat.sub_self]
              rfl
        · rw [getD_set_ne _ _ _ _ _ (fun he => hn he.symm)] at hp'
          rcases Nat.lt_or_ge n ac.next.length with hlt | hge
          · rw [show (insertPath ac 0 ts).1.out.getD n [] =
                outAt (insertPath ac 0 ts).1 n from rfl, sp6 n hlt] at hp'
            obtain ⟨seq, hseq, hne, hw, hplt, hph⟩ := hI.out_sound n pid' hp'
            refine ⟨seq, List.mem_append_left _ hseq, hne, ?_, ?_, ?_⟩
            · refine (walkFrom_next_eq ?_ (insertPath ac 0 ts).1 ?_ seq 0).trans
                (walkFrom_mono ac _ sp4 seq 0 n hw)
              rfl
            · show pid' < ((insertPath ac 0 ts).1.phrases ++ [joinSep [' '] ts]).length
              rw [List.length_append, sp2]
              simp only [List.length_cons, List.length_nil]
              omega
            · show ((insertPath ac 0 ts).1.phrases ++ [joinSep [' '] ts]).getD pid' [] = _
              rw [getD_append_lt _ _ _ _ (by rw [sp2]; exact hplt), sp2]
              exact hph
          · rw [show (insertPath ac 0 ts).1.out.getD n [] =
                outAt (insertPath ac 0 ts).1 n from rfl, sp7 n hge] at hp'
            simp at hp'
      · intro seq hseq hne
        rcases List.mem_append.mp hseq with hmem | hmem
        · obtain ⟨n, hw, pid, hp, hph⟩ := hI.out_complete seq hmem hne
          obtain ⟨-, -, -, -, hplt, -⟩ := hI.out_sound n pid hp
          have hnlt : n < ac.next.length :=
            walkFrom_lt_sz ac hI.struct.edges_lt seq 0 n hI.struct.root_lt hw
          refine ⟨n, ?_, pid, ?_, ?_⟩
          · refine (walkFrom_next_eq ?_ (insertPath ac 0 ts).1 ?_ seq 0).trans
              (walkFrom_mono ac _ sp4 seq 0 n hw)
            rfl
          · simp only [outAt]
            by_cases hn2 : n = (insertPath ac 0 ts).2
            · subst hn2
              rw [getD_set_self _ _ _ _ hr2lt]
              apply List.mem_append_left
              rw [show (insertPath ac 0 ts).1.out.getD (insertPath ac 0 ts).2 [] =
                  outAt (insertPath ac 0 ts).1 (insertPath ac 0 ts).2 from rfl, sp6 _ hnlt]
              exact hp
            · rw [getD_set_ne _ _ _ _ _ (fun he => hn2 he.symm),
                show (insertPath ac 0 ts).1.out.getD n [] =
                  outAt (insertPath ac 0 ts).1 n from rfl, sp6 n hnlt]
              exact hp
          · show ((insertPath ac 0 ts).1.phrases ++ [joinSep [' '] ts]).getD pid [] = _
            rw [getD_append_lt _ _ _ _ (by rw [sp2]; exact hplt), sp2]
            exact hph
        · rw [List.mem_singleton.mp hmem]
          refine ⟨(insertPath ac 0 ts).2, ?_, (insertPath ac 0 ts).1.phrases.length, ?_, ?_⟩
          · refine (walkFrom_next_eq ?_ (insertPath ac 0 ts).1 ?_ ts 0).trans sp8
            rfl
          · simp only [outAt]
            rw [getD_set_self _ _ _ _ hr2lt]
            exact List.mem_append_right _ (List.mem_singleton_self _)
          · show ((insertPath ac 0 ts).1.phrases ++ [joinSep [' '] ts]).getD
              (insertPath ac 0 ts).1.phrases.length [] = _
            rw [getD_append_len _ _ _ _ (le_refl _), Nat.sub_self]
            rfl

theorem emptyAC_StoreInv : StoreInv emptyAC [] := by
  have hedge : ∀ m t, edge emptyAC m t = none := by
    intro m t
    have h : (emptyAC.next).getD m [] = [] := by
      cases m with
      | zero => rfl
      | succ k => cases k <;> rfl
    unfold edge
    rw [h]
    rfl
  refine ⟨⟨rfl, by decide, ?_, ?_⟩, rfl, ?_, ?_⟩
  · intro m t k h
    rw [hedge m t] at h
    cases h
  · intro m₁ t₁ m₂ t₂ k h₁ h₂
    rw [hedge m₁ t₁] at h₁
    cases h₁
  · intro n pid hp
    have h : outAt emptyAC n = [] := by
      cases n with
      | zero => rfl
      | succ k => cases k <;> rfl
    rw [h] at hp
    simp at hp
  · intro seq hseq
    simp at hseq

theorem buildStore_inv : ∀ (seqs : List (List Str)), StoreInv (buildStore seqs) seqs := by
  intro seqs
  induction seqs using List.reverseRecOn with
  | nil => exact emptyAC_StoreInv
  | append_singleton seqs ts ih =>
    have : buildStore (seqs ++ [ts]) = addTokens (buildStore seqs) ts := by
      unfold buildStore
      rw [List.foldl_append]
      rfl
    rw [this]
    exact addTokens_StoreInv (buildStore seqs) seqs ts ih

/-- Counterexample to C6 as stated: inserting the single-token sequence
`["a b"]` (one token that contains a space) and then the two-token sequence
`["a", "b"]` produces two phrase entries although both insertions have the
same space-joined canonical string `"a b"`: the total phrase count (2)
differs from the number of distinct canonical phrase strings ever
inserted (1). -/
theorem c6_counterexample :
    (buildStore [["a b".toList], ["a".toList, "b".toList]]).phrases.length = 2 ∧
    (dedupFirst ([["a b".toList], ["a".toList, "b".toList]].map (joinSep [' ']))).length = 1 ∧
    ¬ ((buildStore [["a b".toList], ["a".toList, "b".toList]]).phrases.length =
      (dedupFirst ([["a b".toList], ["a".toList, "b".toList]].map (joinSep [' ']))).length) := by
  decide

/-- C6 as amended: the phrase store deduplicates by token sequence: after any
sequence of insertions the phrase list is exactly the space-joined form of
the distinct nonempty token sequences ever inserted, in first-insertion
order; hence the phrase count equals the number of distinct nonempty inserted
sequences, and re-inserting an already-inserted token sequence never creates
a new phrase entry.  (This coincides with deduplication by canonical string
whenever tokens are space-free, as the tokenizer guarantees.) -/
theorem c6_phrase_store_amended (seqs : List (List Str)) :
    (buildStore seqs).phrases =
      (dedupFirst (seqs.filter (fun s => !s.isEmpty))).map (joinSep [' ']) ∧
    (buildStore seqs).phrases.length =
      (dedupFirst (seqs.filter (fun s => !s.isEmpty))).length ∧
    (∀ ts, ts ∈ seqs → (buildStore (seqs ++ [ts])).phrases = (buildStore seqs).phrases) := by
  refine ⟨(buildStore_inv seqs).phrases_eq, ?_, ?_⟩
  · rw [(buildStore_inv seqs).phrases_eq, List.length_map]
  · intro ts hts
    rw [(buildStore_inv (seqs ++ [ts])).phrases_eq, (buildStore_inv seqs).phrases_eq]
    by_cases hne : ts = []
    · subst hne
      congr 2
      simp
    · have hfilter : List.filter (fun s => !s.isEmpty) [ts] = [ts] := by
        cases ts with
        | nil => exact absurd rfl hne
        | cons a as => rfl
      rw [List.filter_append, hfilter,
        dedupFirst_append_mem _ _ (List.mem_filter.mpr ⟨hts, by simp [hne]⟩)]

/-- Witness for the amended C6: re-inserting `["a"]` into a store already
holding `["a"]` and `["b"]` leaves the phrase list unchanged. -/
theorem c6_phrase_store_amended_witness :
    (buildStore ([["a".toList], ["b".toList]] ++ [["a".toList]])).phrases =
      (buildStore [["a".toList], ["b".toList]]).phrases :=
  (c6_phrase_store_amended [["a".toList], ["b".toList]]).2.2 ["a".toList] (by decide)
